import Mathlib

/-!
# Verification of the `tsfin` portfolio core (`tsfin/portfolio/portfolio.py`)

Shallow embedding of the position/trade ledger, the carry-forward engine and
the value-weighted metric aggregation of `Portfolio`.

Modelling conventions:
* Python `float` arithmetic is embedded in `ℚ` (exact arithmetic); a
  not-a-number result of a delegated pricing call is modelled as `Option.none`.
* Python dictionaries are association lists (`List (κ × α)`); assignment
  updates the first binding in place or appends a fresh binding at the end,
  exactly as CPython dicts preserve insertion order.
* Dates are `Nat` (only their ordering matters to the code).
* Exceptions are modelled with `Except Err`; mutation of `self` is explicit
  state passing (each fallible method returns the updated `Portfolio`).
  `onOk x f` is exception propagation: run `f` on the result of `x` unless
  `x` raised.  `Option.elim` translates Python's `None` checks.
* `get_security` returns the sentinel `[None]` when no object matches; any
  attribute access on that sentinel raises `AttributeError`.  We model the
  sentinel as `Option.none` and the attribute access as `Err.attributeError`.
-/

set_option maxRecDepth 8000

/-- The exceptions the portfolio core can raise, named after the spec's error
taxonomy.  `structuralFailure` is the `ValueError` raised by `find_lt`,
`attributeError` is Python's `AttributeError` (missing capability or the
`[None]` resolver sentinel), `zeroDivision` is `ZeroDivisionError` (trade
merge with zero net quantity, or zero total value during metric weighting),
`keyError` is a `KeyError` on a missing `positions[date]` entry. -/
inductive Err where
  | structuralFailure
  | attributeError
  | zeroDivision
  | keyError
deriving DecidableEq

instance {e a : Type} [DecidableEq e] [DecidableEq a] : DecidableEq (Except e a)
  | .error x, .error y =>
      if h : x = y then .isTrue (by rw [h]) else .isFalse (by simp [h])
  | .error _, .ok _ => .isFalse (by simp)
  | .ok _, .error _ => .isFalse (by simp)
  | .ok x, .ok y =>
      if h : x = y then .isTrue (by rw [h]) else .isFalse (by simp [h])

/-- Exception propagation: continue with `f` unless an exception was
raised.  (This is `Except.bind`, spelled out so that its two equations are
simp lemmas.) -/
def onOk {A B : Type} (x : Except Err A) (f : A → Except Err B) : Except Err B :=
  match x with
  | .error e => .error e
  | .ok a => f a

@[simp] theorem onOk_ok {A B : Type} (a : A) (f : A → Except Err B) :
    onOk (.ok a) f = f a := rfl

@[simp] theorem onOk_error {A B : Type} (e : Err) (f : A → Except Err B) :
    onOk (.error e) f = .error e := rfl

/-- Python dict lookup `d[k]` / `d.get(k)` on an association list:
first binding wins. -/
def alGet {κ α : Type} [DecidableEq κ] : List (κ × α) → κ → Option α
  | [], _ => none
  | kv :: rest, k => if kv.1 = k then some kv.2 else alGet rest k

/-- Python `d.get(k, default)`. -/
def alGetD {κ α : Type} [DecidableEq κ] (l : List (κ × α)) (k : κ) (d : α) : α :=
  (alGet l k).getD d

/-- Python dict assignment `d[k] = v`: update the first binding in place,
or append a fresh binding at the end (insertion order). -/
def alSet {κ α : Type} [DecidableEq κ] : List (κ × α) → κ → α → List (κ × α)
  | [], k, v => [(k, v)]
  | kv :: rest, k, v => if kv.1 = k then (k, v) :: rest else kv :: alSet rest k v

/-- Python `del d[k]` / `d.pop(k, None)`: remove the first binding for `k`. -/
def alErase {κ α : Type} [DecidableEq κ] : List (κ × α) → κ → List (κ × α)
  | [], _ => []
  | kv :: rest, k => if kv.1 = k then rest else kv :: alErase rest k

/-- Python `d.keys()` in insertion order. -/
def alKeys {κ α : Type} (l : List (κ × α)) : List κ :=
  l.map Prod.fst

/-- A ledger snapshot: one date's map from instrument name (or the base
currency code) to held quantity.  In `value`/metric queries the same shape
holds per-name values and per-name metric results. -/
abbrev Snap : Type := List (String × ℚ)

/-- Python `sum(d.values())`. -/
def snapSum (s : Snap) : ℚ :=
  (s.map Prod.snd).sum

/-- The immutable trade value `trade = namedtuple('trade', 'qty price')`. -/
structure Trade where
  qty : ℚ
  price : ℚ
deriving DecidableEq

/-- The nine per-instrument risk metrics whose portfolio-level aggregation
methods in the source are structurally identical (only the delegated call
varies); the embedding factors them over this name type. -/
inductive MetricName where
  | ytm
  | ytw
  | zspread_to_mat
  | zspread_to_worst
  | zspread_to_worst_rolling_call
  | mod_duration_to_mat
  | mod_duration_to_worst
  | mod_duration_to_worst_rolling_call
  | oas
deriving DecidableEq

/-- An instrument object of the security capability contract.  `ts_name` and
`name` are the two attributes `get_security` probes; `value` returns the unit
price (`none` models a NaN result); `is_expired` and `cash_to_date` are the
required capabilities; `metric` gives each optional metric capability
(`none` at the outer level models a missing attribute, i.e. an
`AttributeError`; `none` at the inner level models a NaN result).  Extra
context such as a yield-curve time series or calibrated model parameters is
forwarded verbatim by the source, so each metric function is modelled as
already closed over that context. -/
structure Security where
  ts_name : Option String
  name : Option String
  value : Nat → Option ℚ
  is_expired : Nat → Bool
  cash_to_date : Nat → Nat → ℚ
  metric : MetricName → Option (Nat → Option ℚ)

/-- The `Portfolio` state: date-keyed position snapshots, the date-keyed
trade audit ledger, the base currency code, and the shared instrument
collection. -/
structure Portfolio where
  positions : List (Nat × Snap)
  trades : List (Nat × List (String × Trade))
  currency : String
  security_objects : List Security

/-- `Portfolio.__init__(currency, security_objects=None)`. -/
def Portfolio.init (currency : String) (security_objects : List Security) : Portfolio :=
  ⟨[], [], currency, security_objects⟩

/-- `merge_trades(old, new)`: quantity-weighted average price; the division
raises `ZeroDivisionError` when the net quantity is zero. -/
def merge_trades (old new : Trade) : Except Err Trade :=
  if old.qty + new.qty = 0 then .error .zeroDivision
  else .ok ⟨old.qty + new.qty,
            (old.qty * old.price + new.qty * new.price) / (old.qty + new.qty)⟩

/-- `find_lt(date, sorted_dates)`: `bisect_left` on the sorted key list
returns the rightmost key strictly less than `date`, i.e. the maximum of the
keys below `date`; raises `ValueError` when there is none. -/
def find_lt (date : Nat) (sorted_dates : List Nat) : Except Err Nat :=
  match sorted_dates.filter (fun k => k < date) with
  | [] => .error .structuralFailure
  | k :: ks => .ok (ks.foldl max k)

/-- The generator-with-default of `get_security`: first object whose
`ts_name` or `name` attribute equals the requested name. -/
def findSecurity (security_name : String) : List Security → Option Security
  | [] => none
  | obj :: rest =>
      if obj.ts_name = some security_name ∨ obj.name = some security_name then some obj
      else findSecurity security_name rest

/-- `Portfolio.get_security(security_name)`: the `[None]` sentinel for no
match is modelled as `none`. -/
def Portfolio.get_security (p : Portfolio) (security_name : String) : Option Security :=
  findSecurity security_name p.security_objects

/-- `Portfolio.add_position(date, name, qty)`:
`positions[date][name] = positions[date].get(name, 0) + qty`, creating the
date entry as `{name: qty}` when absent. -/
def Portfolio.add_position (p : Portfolio) (date : Nat) (name : String) (qty : ℚ) :
    Portfolio :=
  Option.elim (alGet p.positions date)
    { p with positions := alSet p.positions date [(name, qty)] }
    (fun snap =>
      { p with positions := alSet p.positions date (alSet snap name (alGetD snap name 0 + qty)) })

/-- `Portfolio.remove_position(date, name, qty=None)`.  With `qty = None`
the source pops the key `date` from the *name-keyed* inner dict
(`self.positions[date].pop(date, None)`, the latent bug noted by the spec);
a date is never equal to a string key, so that pop is a no-op on positions.
With an explicit `qty` it decrements the held quantity. -/
def Portfolio.remove_position (p : Portfolio) (date : Nat) (name : String)
    (qty : Option ℚ) : Portfolio :=
  Option.elim (alGet p.positions date) p
    (fun snap =>
      Option.elim qty p
        (fun q =>
          { p with positions := alSet p.positions date (alSet snap name (alGetD snap name 0 - q)) }))

/-- The body of the `for security_name in self.positions[previous_date].keys()`
loop of `carry_to`: resolve the instrument (`[None].cash_to_date` raises
`AttributeError`), credit its interim cash accrual to the currency balance at
`date`, and carry its quantity unless it is expired.  The quantity is read
from the live state's `previous_date` snapshot, which the loop never
mutates. -/
def carryLoop (date previous_date : Nat) :
    List String → Portfolio → Except Err Portfolio
  | [], st => .ok st
  | security_name :: rest, st =>
      Option.elim (st.get_security security_name)
        (.error .attributeError)
        (fun security =>
          let st1 := st.add_position date st.currency
            (security.cash_to_date previous_date date)
          let st2 :=
            if security.is_expired date then st1
            else st1.add_position date security_name
              (alGetD (alGetD st1.positions previous_date []) security_name 0)
          carryLoop date previous_date rest st2)

/-- `Portfolio.carry_to(date)`: no-op when `date` already has a snapshot,
otherwise find the nearest strictly-earlier date and run the carry loop over
its held names. -/
def Portfolio.carry_to (p : Portfolio) (date : Nat) : Except Err Portfolio :=
  Option.elim (alGet p.positions date)
    (onOk (find_lt date (alKeys p.positions))
      (fun previous_date =>
        carryLoop date previous_date
          (alKeys (alGetD p.positions previous_date [])) p))
    (fun _ => .ok p)

/-- `Portfolio._apply_trade(date, name, new_trade)`: materialize `date` if
needed, then `positions[date][name] += qty`,
`positions[date][currency] -= qty*price`, and delete a non-currency entry
that netted to exactly 0.  The `keyError` branch is Python's `KeyError` when
`carry_to` produced no entry at `date` (carry from an empty snapshot). -/
def Portfolio.apply_trade (p : Portfolio) (date : Nat) (name : String)
    (new_trade : Trade) : Except Err Portfolio :=
  onOk (Option.elim (alGet p.positions date) (p.carry_to date) (fun _ => .ok p))
    (fun p1 =>
      Option.elim (alGet p1.positions date)
        (.error .keyError)
        (fun snap =>
          let snap1 := alSet snap name (alGetD snap name 0 + new_trade.qty)
          let snap2 := alSet snap1 p1.currency
            (alGetD snap1 p1.currency 0 - new_trade.qty * new_trade.price)
          let snap3 :=
            if alGetD snap2 name 0 = 0 ∧ name ≠ p1.currency
            then alErase snap2 name else snap2
          .ok { p1 with positions := alSet p1.positions date snap3 }))

/-- `Portfolio.add_trade(date, name, new_trade)`: merge with any same-day
trade on `name` (merging with `trade(0, 0)` when the day exists but holds no
trade on `name`), record it in the trade ledger, then apply the net trade to
positions. -/
def Portfolio.add_trade (p : Portfolio) (date : Nat) (name : String)
    (new_trade : Trade) : Except Err Portfolio :=
  Option.elim (alGet p.trades date)
    (Portfolio.apply_trade
      { p with trades := alSet p.trades date [(name, new_trade)] }
      date name new_trade)
    (fun day_trades =>
      onOk (merge_trades (alGetD day_trades name ⟨0, 0⟩) new_trade)
        (fun merged =>
          Portfolio.apply_trade
            { p with trades := alSet p.trades date (alSet day_trades name merged) }
            date name new_trade))

/-- The `for security_name in self.positions[date].keys()` loop of
`Portfolio.value`: the currency has unit value 1; other names are resolved
(`[None].value` raises `AttributeError`, uncaught in the source); a NaN unit
value is replaced by 0 with a diagnostic. -/
def buildValueDict (p : Portfolio) (date : Nat) :
    List (String × ℚ) → Snap → Except Err Snap
  | [], vd => .ok vd
  | kv :: rest, vd =>
      if kv.1 = p.currency then
        buildValueDict p date rest (alSet vd kv.1 (1 * kv.2))
      else
        Option.elim (p.get_security kv.1)
          (.error .attributeError)
          (fun sec =>
            Option.elim (sec.value date)
              (buildValueDict p date rest (alSet vd kv.1 (0 * kv.2)))
              (fun u => buildValueDict p date rest (alSet vd kv.1 (u * kv.2))))

/-- `Portfolio.value(date)`: carry forward, then per-name market values and
their sum. -/
def Portfolio.value (p : Portfolio) (date : Nat) :
    Except Err (Portfolio × ℚ × Snap) :=
  onOk (p.carry_to date)
    (fun p1 =>
      Option.elim (alGet p1.positions date)
        (.error .keyError)
        (fun snap =>
          onOk (buildValueDict p1 date snap [])
            (fun value_dict => .ok (p1, snapSum value_dict, value_dict))))

/-- The per-instrument metric result of the aggregation loop shared by the
nine metric methods: a resolver miss, a missing metric capability
(`AttributeError`, caught by the `try`) or a NaN result is replaced by 0. -/
def mRes (p : Portfolio) (m : MetricName) (date : Nat) (security_name : String) : ℚ :=
  Option.elim (p.get_security security_name) 0
    (fun sec =>
      Option.elim (sec.metric m) 0
        (fun f => Option.elim (f date) 0 id))

/-- The `result_dict` loop shared by the nine metric methods. -/
def buildResultDict (p : Portfolio) (m : MetricName) (date : Nat) :
    List (String × ℚ) → Snap → Snap
  | [], rd => rd
  | kv :: rest, rd =>
      buildResultDict p m date rest (alSet rd kv.1 (mRes p m date kv.1))

/-- The generic metric aggregation shared verbatim by `Portfolio.ytm`,
`ytw`, `zspread_to_mat`, `zspread_to_worst`,
`zspread_to_worst_rolling_call`, `mod_duration_to_mat`,
`mod_duration_to_worst`, `mod_duration_to_worst_rolling_call` and `oas`:
carry forward, compute `value, value_dict = self.value(date)`, build the
per-instrument result dict, then
`sum(value_dict[n] * result_dict[n] / value for n in positions[date])`.
The generator raises `ZeroDivisionError` on its first term when `value`
is 0 and the snapshot is non-empty; an empty snapshot sums to 0 without
ever dividing. -/
def Portfolio.metricQuery (p : Portfolio) (m : MetricName) (date : Nat) :
    Except Err (Portfolio × ℚ × Snap) :=
  onOk (p.carry_to date)
    (fun p1 =>
      onOk (p1.value date)
        (fun r =>
          Option.elim (alGet r.1.positions date)
            (.error .keyError)
            (fun snap =>
              let result_dict := buildResultDict r.1 m date snap []
              if snap = [] then .ok (r.1, 0, result_dict)
              else if r.2.1 = 0 then .error .zeroDivision
              else .ok (r.1,
                (snap.map (fun kv =>
                  alGetD r.2.2 kv.1 0 * alGetD result_dict kv.1 0 / r.2.1)).sum,
                result_dict))))

/-- `Portfolio.ytm(date)`. -/
def Portfolio.ytm (p : Portfolio) (date : Nat) : Except Err (Portfolio × ℚ × Snap) :=
  p.metricQuery .ytm date

/-- `Portfolio.ytw(date)`. -/
def Portfolio.ytw (p : Portfolio) (date : Nat) : Except Err (Portfolio × ℚ × Snap) :=
  p.metricQuery .ytw date

/-- `Portfolio.zspread_to_mat(date, yield_curve_timeseries=...)`. -/
def Portfolio.zspread_to_mat (p : Portfolio) (date : Nat) :
    Except Err (Portfolio × ℚ × Snap) :=
  p.metricQuery .zspread_to_mat date

/-- `Portfolio.zspread_to_worst(date, yield_curve_timeseries=...)`. -/
def Portfolio.zspread_to_worst (p : Portfolio) (date : Nat) :
    Except Err (Portfolio × ℚ × Snap) :=
  p.metricQuery .zspread_to_worst date

/-- `Portfolio.zspread_to_worst_rolling_call(date, yield_curve_timeseries=...)`. -/
def Portfolio.zspread_to_worst_rolling_call (p : Portfolio) (date : Nat) :
    Except Err (Portfolio × ℚ × Snap) :=
  p.metricQuery .zspread_to_worst_rolling_call date

/-- `Portfolio.mod_duration_to_mat(date)`. -/
def Portfolio.mod_duration_to_mat (p : Portfolio) (date : Nat) :
    Except Err (Portfolio × ℚ × Snap) :=
  p.metricQuery .mod_duration_to_mat date

/-- `Portfolio.mod_duration_to_worst(date)`. -/
def Portfolio.mod_duration_to_worst (p : Portfolio) (date : Nat) :
    Except Err (Portfolio × ℚ × Snap) :=
  p.metricQuery .mod_duration_to_worst date

/-- `Portfolio.mod_duration_to_worst_rolling_call(date)`. -/
def Portfolio.mod_duration_to_worst_rolling_call (p : Portfolio) (date : Nat) :
    Except Err (Portfolio × ℚ × Snap) :=
  p.metricQuery .mod_duration_to_worst_rolling_call date

/-- `Portfolio.oas(date, yield_curve_timeseries=..., model_params=...)`. -/
def Portfolio.oas (p : Portfolio) (date : Nat) :
    Except Err (Portfolio × ℚ × Snap) :=
  p.metricQuery .oas date

/-- Forget the returned (function-carrying) `Portfolio` state of a query
result, keeping the decidably-comparable numeric payload. -/
def stripState (r : Except Err (Portfolio × ℚ × Snap)) : Except Err (ℚ × Snap) :=
  match r with
  | .error e => .error e
  | .ok x => .ok (x.2.1, x.2.2)

@[simp] theorem stripState_ok (x : Portfolio × ℚ × Snap) :
    stripState (.ok x) = .ok (x.2.1, x.2.2) := rfl

@[simp] theorem stripState_error (e : Err) :
    stripState (.error e) = .error e := rfl

/-! ## Association-list lemmas -/

section AListLemmas

variable {κ α : Type} [DecidableEq κ]

theorem mem_alKeys {l : List (κ × α)} {k : κ} : k ∈ alKeys l ↔ ∃ v, (k, v) ∈ l := by
  induction l with
  | nil => simp [alKeys]
  | cons kv rest ih =>
      constructor
      · intro h
        rcases List.mem_cons.mp h with h0 | h0
        · exact ⟨kv.2, by rw [h0]; exact List.mem_cons_self _ _⟩
        · rcases ih.mp h0 with ⟨v, hv⟩
          exact ⟨v, List.mem_cons_of_mem _ hv⟩
      · rintro ⟨v, hv⟩
        rcases List.mem_cons.mp hv with h0 | h0
        · simp [alKeys, ← h0]
        · exact List.mem_cons_of_mem _ (ih.mpr ⟨v, h0⟩)

theorem alSet_nil (k : κ) (v : α) : alSet ([] : List (κ × α)) k v = [(k, v)] := rfl

theorem alSet_cons (kv : κ × α) (rest : List (κ × α)) (k : κ) (v : α) :
    alSet (kv :: rest) k v = if kv.1 = k then (k, v) :: rest else kv :: alSet rest k v := rfl

theorem alGet_cons (kv : κ × α) (rest : List (κ × α)) (k : κ) :
    alGet (kv :: rest) k = if kv.1 = k then some kv.2 else alGet rest k := rfl

theorem alGet_alSet_self (l : List (κ × α)) (k : κ) (v : α) :
    alGet (alSet l k v) k = some v := by
  induction l with
  | nil => simp [alGet, alSet]
  | cons kv rest ih =>
      by_cases h : kv.1 = k
      · simp [alGet, alSet, h]
      · simp [alGet, alSet, h, ih]

theorem alGet_alSet_ne (l : List (κ × α)) (k k' : κ) (v : α) (h : k' ≠ k) :
    alGet (alSet l k v) k' = alGet l k' := by
  induction l with
  | nil => simp [alGet, alSet, Ne.symm h]
  | cons kv rest ih =>
      by_cases hk : kv.1 = k
      · subst hk
        simp [alGet, alSet, Ne.symm h]
      · simp [alGet, alSet, hk, ih]

theorem alSet_alSet_self (l : List (κ × α)) (k : κ) (v v' : α) :
    alSet (alSet l k v) k v' = alSet l k v' := by
  induction l with
  | nil => simp [alSet]
  | cons kv rest ih =>
      by_cases h : kv.1 = k
      · simp [alSet, h]
      · simp [alSet, h, ih]

theorem alSet_fresh (l : List (κ × α)) (k : κ) (v : α) (h : alGet l k = none) :
    alSet l k v = l ++ [(k, v)] := by
  induction l with
  | nil => simp [alSet]
  | cons kv rest ih =>
      by_cases hk : kv.1 = k
      · simp [alGet, hk] at h
      · simp [alGet, hk] at h
        simp [alSet, hk, ih h]

theorem alGet_append_left (l1 l2 : List (κ × α)) (k : κ) (h : alGet l1 k = none) :
    alGet (l1 ++ l2) k = alGet l2 k := by
  induction l1 with
  | nil => simp
  | cons kv rest ih =>
      by_cases hk : kv.1 = k
      · simp [alGet, hk] at h
      · simp [alGet, hk] at h ⊢
        exact ih h

theorem alGet_mem {l : List (κ × α)} {k : κ} {v : α} (h : alGet l k = some v) :
    (k, v) ∈ l := by
  induction l with
  | nil => simp [alGet] at h
  | cons kv rest ih =>
      obtain ⟨a, b⟩ := kv
      by_cases hk : a = k
      · simp [alGet, hk] at h
        simp [hk, h]
      · simp [alGet, hk] at h
        exact List.mem_cons_of_mem _ (ih h)

theorem alGet_eq_none (l : List (κ × α)) (k : κ) (h : k ∉ alKeys l) :
    alGet l k = none := by
  induction l with
  | nil => rfl
  | cons kv rest ih =>
      have h1 : kv.1 ≠ k := by
        intro he
        exact h (by simp [alKeys, he])
      have h2 : k ∉ alKeys rest := by
        intro hm
        exact h (by simp [alKeys] at hm ⊢; right; exact hm)
      simp [alGet, h1, ih h2]

theorem alGet_isSome_of_mem_keys (l : List (κ × α)) (k : κ) (h : k ∈ alKeys l) :
    (alGet l k).isSome := by
  rcases mem_alKeys.mp h with ⟨v, hv⟩
  induction l with
  | nil => simp at hv
  | cons kv rest ih =>
      by_cases hk : kv.1 = k
      · simp [alGet, hk]
      · rcases List.mem_cons.mp hv with h0 | h0
        · exact absurd (congrArg Prod.fst h0).symm hk
        · simp only [alGet, hk, if_false]
          exact ih (mem_alKeys.mpr ⟨v, h0⟩) h0

theorem mem_alKeys_of_alGet {l : List (κ × α)} {k : κ} {v : α}
    (h : alGet l k = some v) : k ∈ alKeys l :=
  mem_alKeys.mpr ⟨v, alGet_mem h⟩

theorem alGet_of_nodup_mem {l : List (κ × α)} (hnd : (alKeys l).Nodup)
    {kv : κ × α} (h : kv ∈ l) : alGet l kv.1 = some kv.2 := by
  induction l with
  | nil => simp at h
  | cons kv0 rest ih =>
      rw [show alKeys (kv0 :: rest) = kv0.1 :: alKeys rest from rfl,
        List.nodup_cons] at hnd
      rcases List.mem_cons.mp h with h0 | h0
      · subst h0
        simp [alGet]
      · have hne : kv0.1 ≠ kv.1 := by
          intro he
          exact hnd.1 (he ▸ mem_alKeys.mpr ⟨kv.2, h0⟩)
        simp [alGet, hne]
        exact ih hnd.2 h0

theorem alKeys_append (l1 l2 : List (κ × α)) :
    alKeys (l1 ++ l2) = alKeys l1 ++ alKeys l2 := by
  simp [alKeys]

theorem alKeys_alSet_mem (l : List (κ × α)) (k : κ) (v : α) (h : k ∈ alKeys l) :
    alKeys (alSet l k v) = alKeys l := by
  induction l with
  | nil => simp [alKeys] at h
  | cons kv rest ih =>
      by_cases hk : kv.1 = k
      · simp [alSet, alKeys, hk]
      · have h2 : k ∈ alKeys rest := by
          rcases mem_alKeys.mp h with ⟨v', hv'⟩
          rcases List.mem_cons.mp hv' with h0 | h0
          · exact absurd (congrArg Prod.fst h0).symm hk
          · exact mem_alKeys.mpr ⟨v', h0⟩
        simp [alSet, alKeys, hk]
        simpa [alKeys] using ih h2

theorem alGet_map_pair (ns : List κ) (g : κ → α) (k : κ) (h : k ∈ ns) :
    alGet (ns.map (fun n => (n, g n))) k = some (g k) := by
  induction ns with
  | nil => simp at h
  | cons n rest ih =>
      by_cases hk : n = k
      · simp [alGet, hk]
      · rcases List.mem_cons.mp h with h0 | h0
        · exact absurd h0.symm hk
        · simp [alGet, hk, ih h0]

theorem alGet_map_pair_none (ns : List κ) (g : κ → α) (k : κ) (h : k ∉ ns) :
    alGet (ns.map (fun n => (n, g n))) k = none := by
  induction ns with
  | nil => rfl
  | cons n rest ih =>
      have h1 : n ≠ k := fun he => h (by simp [he])
      have h2 : k ∉ rest := fun hm => h (List.mem_cons_of_mem _ hm)
      simp [alGet, h1, ih h2]

theorem mem_alSet (l : List (κ × α)) (k : κ) (v : α) (b : κ × α)
    (h : b ∈ alSet l k v) : b = (k, v) ∨ b ∈ l := by
  induction l with
  | nil => simp [alSet] at h; simp [h]
  | cons kv rest ih =>
      by_cases hk : kv.1 = k
      · simp only [alSet, hk, if_true, List.mem_cons] at h
        rcases h with h | h
        · left; exact h
        · right; exact List.mem_cons_of_mem _ h
      · simp only [alSet, hk, if_false, List.mem_cons] at h
        rcases h with h | h
        · right; simp [h]
        · rcases ih h with h0 | h0
          · left; exact h0
          · right; exact List.mem_cons_of_mem _ h0

theorem mem_alErase (l : List (κ × α)) (k : κ) (b : κ × α)
    (h : b ∈ alErase l k) : b ∈ l := by
  induction l with
  | nil => simp [alErase] at h
  | cons kv rest ih =>
      by_cases hk : kv.1 = k
      · simp only [alErase, hk, if_true] at h
        exact List.mem_cons_of_mem _ h
      · simp only [alErase, hk, if_false, List.mem_cons] at h
        rcases h with h | h
        · simp [h]
        · exact List.mem_cons_of_mem _ (ih h)

theorem alKeys_alErase_sublist (l : List (κ × α)) (k : κ) :
    (alKeys (alErase l k)).Sublist (alKeys l) := by
  induction l with
  | nil => simp [alErase, alKeys]
  | cons kv rest ih =>
      by_cases hk : kv.1 = k
      · rw [show alErase (kv :: rest) k = rest from by simp [alErase, hk],
          show alKeys (kv :: rest) = kv.1 :: alKeys rest from rfl]
        exact List.sublist_cons_self _ _
      · rw [show alErase (kv :: rest) k = kv :: alErase rest k from by simp [alErase, hk],
          show alKeys (kv :: rest) = kv.1 :: alKeys rest from rfl,
          show alKeys (kv :: alErase rest k) = kv.1 :: alKeys (alErase rest k) from rfl]
        exact List.Sublist.cons₂ _ ih

theorem alKeys_alSet_nodup (l : List (κ × α)) (k : κ) (v : α)
    (h : (alKeys l).Nodup) : (alKeys (alSet l k v)).Nodup := by
  by_cases hk : k ∈ alKeys l
  · rw [alKeys_alSet_mem l k v hk]; exact h
  · rw [alSet_fresh l k v (alGet_eq_none l k hk), alKeys_append]
    refine h.append (by simp [alKeys]) ?_
    intro a ha hb
    have : a = k := by simpa [alKeys] using hb
    exact hk (this ▸ ha)

theorem alKeys_alErase_nodup (l : List (κ × α)) (k : κ)
    (h : (alKeys l).Nodup) : (alKeys (alErase l k)).Nodup :=
  (alKeys_alErase_sublist l k).nodup h

theorem mem_alErase_nodup (l : List (κ × α)) (k : κ)
    (h : (alKeys l).Nodup) (b : κ × α) (hb : b ∈ alErase l k) :
    b ∈ l ∧ b.1 ≠ k := by
  induction l with
  | nil => simp [alErase] at hb
  | cons kv rest ih =>
      rw [show alKeys (kv :: rest) = kv.1 :: alKeys rest from rfl,
        List.nodup_cons] at h
      by_cases hk : kv.1 = k
      · rw [show alErase (kv :: rest) k = rest from by simp [alErase, hk]] at hb
        refine ⟨List.mem_cons_of_mem _ hb, ?_⟩
        intro hbk
        exact h.1 ((hk ▸ hbk) ▸ mem_alKeys.mpr ⟨b.2, by simpa using hb⟩)
      · rw [show alErase (kv :: rest) k = kv :: alErase rest k from by
          simp [alErase, hk]] at hb
        rcases List.mem_cons.mp hb with h0 | h0
        · exact ⟨by simp [h0], by rw [h0]; exact hk⟩
        · rcases ih h.2 h0 with ⟨hm, hne⟩
          exact ⟨List.mem_cons_of_mem _ hm, hne⟩

end AListLemmas

/-! ## `find_lt` lemmas -/

/-- `find_lt` raises `ValueError` exactly when no key is strictly below the
requested date. -/
theorem find_lt_error_iff (date : Nat) (keys : List Nat) :
    find_lt date keys = .error .structuralFailure ↔ ∀ k ∈ keys, ¬ k < date := by
  unfold find_lt
  constructor
  · intro h k hk hlt
    rcases he : keys.filter (fun k => decide (k < date)) with _ | ⟨k0, ks⟩
    · have : k ∈ keys.filter (fun k => decide (k < date)) :=
        List.mem_filter.mpr ⟨hk, by simpa using hlt⟩
      rw [he] at this
      simp at this
    · rw [he] at h
      simp at h
  · intro h
    rcases he : keys.filter (fun k => decide (k < date)) with _ | ⟨k0, ks⟩
    · simp
    · have : k0 ∈ keys.filter (fun k => decide (k < date)) := by simp [he]
      rcases List.mem_filter.mp this with ⟨hmem, hlt⟩
      exact absurd (by simpa using hlt) (h k0 hmem)

theorem foldl_max_mem (k : Nat) (ks : List Nat) : ks.foldl max k ∈ k :: ks := by
  induction ks generalizing k with
  | nil => simp
  | cons a rest ih =>
      rw [show List.foldl max k (a :: rest) = List.foldl max (max k a) rest from rfl]
      rcases List.mem_cons.mp (ih (max k a)) with h | h
      · rw [h]
        rcases max_choice k a with hm | hm
        · rw [hm]; exact List.mem_cons_self _ _
        · rw [hm]; exact List.mem_cons_of_mem _ (List.mem_cons_self _ _)
      · exact List.mem_cons_of_mem _ (List.mem_cons_of_mem _ h)

/-- A successful `find_lt` returns a ledger date strictly before the
requested date. -/
theorem find_lt_ok (date : Nat) (keys : List Nat) (prev : Nat)
    (h : find_lt date keys = .ok prev) : prev ∈ keys ∧ prev < date := by
  unfold find_lt at h
  rcases he : keys.filter (fun k => decide (k < date)) with _ | ⟨k0, ks⟩
  · rw [he] at h; simp at h
  · rw [he] at h
    simp at h
    have hmem : prev ∈ keys.filter (fun k => decide (k < date)) := by
      rw [he, ← h]
      exact foldl_max_mem k0 ks
    rcases List.mem_filter.mp hmem with ⟨h1, h2⟩
    exact ⟨h1, by simpa using h2⟩

/-! ## Frame lemmas: field-preserving updates -/

theorem get_security_positions (p : Portfolio) (P : List (Nat × Snap)) (n : String) :
    ({ p with positions := P } : Portfolio).get_security n = p.get_security n := rfl

theorem currency_positions (p : Portfolio) (P : List (Nat × Snap)) :
    ({ p with positions := P } : Portfolio).currency = p.currency := rfl

theorem add_position_fields (p : Portfolio) (date : Nat) (name : String) (qty : ℚ) :
    (p.add_position date name qty).currency = p.currency ∧
    (p.add_position date name qty).trades = p.trades ∧
    (p.add_position date name qty).security_objects = p.security_objects := by
  unfold Portfolio.add_position
  rcases alGet p.positions date with _ | s <;> simp [Option.elim]

/-- `add_position` on an already-materialized date updates just that date's
snapshot. -/
theorem add_position_some (p : Portfolio) (date : Nat) (name : String) (qty : ℚ)
    (snap : Snap) (h : alGet p.positions date = some snap) :
    p.add_position date name qty =
      { p with positions :=
          alSet p.positions date (alSet snap name (alGetD snap name 0 + qty)) } := by
  unfold Portfolio.add_position
  rw [h]
  rfl

/-- `add_position` on a fresh date creates the singleton snapshot. -/
theorem add_position_none (p : Portfolio) (date : Nat) (name : String) (qty : ℚ)
    (h : alGet p.positions date = none) :
    p.add_position date name qty =
      { p with positions := alSet p.positions date [(name, qty)] } := by
  unfold Portfolio.add_position
  rw [h]
  rfl

/-! ## Carry-forward characterization -/

/-- Replace a portfolio's positions, keeping every other field. -/
def withPositions (p : Portfolio) (P : List (Nat × Snap)) : Portfolio :=
  { p with positions := P }

@[simp] theorem withPositions_positions (p : Portfolio) (P : List (Nat × Snap)) :
    (withPositions p P).positions = P := rfl

@[simp] theorem withPositions_currency (p : Portfolio) (P : List (Nat × Snap)) :
    (withPositions p P).currency = p.currency := rfl

@[simp] theorem withPositions_trades (p : Portfolio) (P : List (Nat × Snap)) :
    (withPositions p P).trades = p.trades := rfl

@[simp] theorem withPositions_security_objects (p : Portfolio) (P : List (Nat × Snap)) :
    (withPositions p P).security_objects = p.security_objects := rfl

@[simp] theorem withPositions_get_security (p : Portfolio) (P : List (Nat × Snap))
    (n : String) : (withPositions p P).get_security n = p.get_security n := rfl

@[simp] theorem withPositions_withPositions (p : Portfolio)
    (P Q : List (Nat × Snap)) :
    withPositions (withPositions p P) Q = withPositions p Q := rfl

@[simp] theorem withPositions_self (p : Portfolio) :
    withPositions p p.positions = p := rfl

theorem add_position_some' (p : Portfolio) (date : Nat) (name : String) (qty : ℚ)
    (snap : Snap) (h : alGet p.positions date = some snap) :
    p.add_position date name qty =
      withPositions p (alSet p.positions date (alSet snap name (alGetD snap name 0 + qty))) :=
  add_position_some p date name qty snap h

theorem add_position_none' (p : Portfolio) (date : Nat) (name : String) (qty : ℚ)
    (h : alGet p.positions date = none) :
    p.add_position date name qty =
      withPositions p (alSet p.positions date [(name, qty)]) :=
  add_position_none p date name qty h

/-- The interim cash accrual `cash_to_date(previous_date, date)` of the
instrument resolved for `name` (0 when unresolvable; the carry loop errors
before using this value in that case). -/
def secCash (p : Portfolio) (previous_date date : Nat) (name : String) : ℚ :=
  Option.elim (p.get_security name) 0 (fun sec => sec.cash_to_date previous_date date)

/-- The expiry flag of the instrument resolved for `name`. -/
def secExpired (p : Portfolio) (date : Nat) (name : String) : Bool :=
  Option.elim (p.get_security name) false (fun sec => sec.is_expired date)

/-- The snapshot produced at the carried date by the carry loop, as a fold
over the previous date's held names. -/
def carrySnapAux (p : Portfolio) (previous_date date : Nat) (snapPrev : Snap) :
    List String → Snap → Snap
  | [], s => s
  | n :: rest, s =>
      let s1 := alSet s p.currency (alGetD s p.currency 0 + secCash p previous_date date n)
      let s2 := if secExpired p date n then s1
                else alSet s1 n (alGetD s1 n 0 + alGetD snapPrev n 0)
      carrySnapAux p previous_date date snapPrev rest s2

/-- Closed form of the carried snapshot: the currency balance holds the sum
of all interim cash accruals (expired instruments included), followed by the
non-expired positions carried with unchanged quantities. -/
def carriedSnap (p : Portfolio) (previous_date date : Nat) (snapPrev : Snap) : Snap :=
  (p.currency, ((alKeys snapPrev).map (secCash p previous_date date)).sum) ::
    ((alKeys snapPrev).filter (fun n => !(secExpired p date n))).map
      (fun n => (n, alGetD snapPrev n 0))

/-- Unfolding equation for one `carrySnapAux` step. -/
theorem carrySnapAux_cons (p : Portfolio) (previous_date date : Nat) (snapPrev : Snap)
    (n : String) (rest : List String) (s : Snap) :
    carrySnapAux p previous_date date snapPrev (n :: rest) s
      = carrySnapAux p previous_date date snapPrev rest
          (if secExpired p date n
           then alSet s p.currency (alGetD s p.currency 0 + secCash p previous_date date n)
           else alSet (alSet s p.currency (alGetD s p.currency 0 + secCash p previous_date date n)) n
             (alGetD (alSet s p.currency (alGetD s p.currency 0 + secCash p previous_date date n)) n 0
               + alGetD snapPrev n 0)) := rfl

/-- The carry loop, on a state whose carried-date snapshot is already
materialized, performs the matching `carrySnapAux` fold. -/
theorem carryLoop_set (p : Portfolio) (date previous_date : Nat) (snapPrev : Snap)
    (hdp : date ≠ previous_date)
    (hs : alGet p.positions previous_date = some snapPrev) :
    ∀ (names : List String) (s : Snap),
    (∀ n ∈ names, (p.get_security n).isSome) →
    carryLoop date previous_date names (withPositions p (alSet p.positions date s))
      = .ok (withPositions p
          (alSet p.positions date (carrySnapAux p previous_date date snapPrev names s))) := by
  intro names
  induction names with
  | nil =>
      intro s _
      rfl
  | cons n rest ih =>
      intro s hres
      have hn : (p.get_security n).isSome := hres n (List.mem_cons_self _ _)
      rcases hsec : p.get_security n with _ | sec
      · rw [hsec] at hn; simp at hn
      have hcash : secCash p previous_date date n = sec.cash_to_date previous_date date := by
        unfold secCash; rw [hsec]; rfl
      have hexpeq : secExpired p date n = sec.is_expired date := by
        unfold secExpired; rw [hsec]; rfl
      have hgetd : alGet (alSet p.positions date s) date = some s :=
        alGet_alSet_self _ _ _
      rw [show carryLoop date previous_date (n :: rest)
            (withPositions p (alSet p.positions date s)) =
          Option.elim ((withPositions p (alSet p.positions date s)).get_security n)
            (.error .attributeError)
            (fun security =>
              let st1 := (withPositions p (alSet p.positions date s)).add_position date
                (withPositions p (alSet p.positions date s)).currency
                (security.cash_to_date previous_date date)
              let st2 :=
                if security.is_expired date then st1
                else st1.add_position date n
                  (alGetD (alGetD st1.positions previous_date []) n 0)
              carryLoop date previous_date rest st2) from rfl]
      rw [withPositions_get_security, hsec]
      simp only [Option.elim, withPositions_currency]
      rw [add_position_some' _ _ _ _ s hgetd]
      simp only [withPositions_positions, withPositions_withPositions, alSet_alSet_self]
      set s1 := alSet s p.currency
        (alGetD s p.currency 0 + sec.cash_to_date previous_date date) with hs1
      have hgetd1 : alGet (alSet p.positions date s1) date = some s1 :=
        alGet_alSet_self _ _ _
      have hgetprev1 : alGetD (alSet p.positions date s1) previous_date [] = snapPrev := by
        unfold alGetD
        rw [alGet_alSet_ne _ _ _ _ (Ne.symm hdp), hs]
        rfl
      rw [carrySnapAux_cons]
      simp only [hcash, hexpeq, ← hs1]
      by_cases hexp : sec.is_expired date = true
      · rw [if_pos hexp, if_pos hexp]
        exact ih s1 (fun m hm => hres m (List.mem_cons_of_mem _ hm))
      · rw [if_neg hexp, if_neg hexp]
        rw [add_position_some' _ _ _ _ s1 hgetd1]
        simp only [withPositions_positions, withPositions_withPositions, alSet_alSet_self,
          hgetprev1]
        exact ih _ (fun m hm => hres m (List.mem_cons_of_mem _ hm))

/-- Characterization of a successful carry-forward: when the requested date
has no snapshot, the nearest earlier date resolves, and every name held
there resolves to an instrument, `carry_to` materializes exactly the
`carrySnapAux` fold of the previous snapshot's names. -/
theorem carry_to_spec (p : Portfolio) (date previous_date : Nat) (snapPrev : Snap)
    (hd : alGet p.positions date = none)
    (hf : find_lt date (alKeys p.positions) = .ok previous_date)
    (hs : alGet p.positions previous_date = some snapPrev)
    (hne : snapPrev ≠ [])
    (hres : ∀ n ∈ alKeys snapPrev, (p.get_security n).isSome) :
    p.carry_to date = .ok (withPositions p (alSet p.positions date
        (carrySnapAux p previous_date date snapPrev (alKeys snapPrev) []))) := by
  have hdp : date ≠ previous_date := by
    intro he
    rw [he, hs] at hd
    exact Option.noConfusion hd
  rw [show p.carry_to date = Option.elim (alGet p.positions date)
        (onOk (find_lt date (alKeys p.positions))
          (fun previous_date =>
            carryLoop date previous_date (alKeys (alGetD p.positions previous_date [])) p))
        (fun _ => .ok p) from rfl]
  rw [hd]
  simp only [Option.elim]
  rw [hf, onOk_ok]
  rw [show alGetD p.positions previous_date [] = snapPrev from by
    unfold alGetD; rw [hs]; rfl]
  cases snapPrev with
  | nil => exact absurd rfl hne
  | cons kv0 tl =>
      have hn0 : (p.get_security kv0.1).isSome :=
        hres kv0.1 (by simp [alKeys])
      rcases hsec : p.get_security kv0.1 with _ | sec
      · rw [hsec] at hn0; simp at hn0
      have hcash : secCash p previous_date date kv0.1
          = sec.cash_to_date previous_date date := by
        unfold secCash; rw [hsec]; rfl
      have hexpeq : secExpired p date kv0.1 = sec.is_expired date := by
        unfold secExpired; rw [hsec]; rfl
      rw [show carryLoop date previous_date (alKeys (kv0 :: tl)) p =
          Option.elim (p.get_security kv0.1) (.error .attributeError)
            (fun security =>
              let st1 := p.add_position date p.currency
                (security.cash_to_date previous_date date)
              let st2 := if security.is_expired date then st1
                else st1.add_position date kv0.1
                  (alGetD (alGetD st1.positions previous_date []) kv0.1 0)
              carryLoop date previous_date (alKeys tl) st2) from rfl]
      rw [hsec]
      simp only [Option.elim]
      rw [add_position_none' _ _ _ _ hd]
      set s1 : Snap := [(p.currency, sec.cash_to_date previous_date date)] with hs1def
      have hgetd1 : alGet (alSet p.positions date s1) date = some s1 :=
        alGet_alSet_self _ _ _
      have hgetprev1 : alGetD (alSet p.positions date s1) previous_date [] = kv0 :: tl := by
        unfold alGetD
        rw [alGet_alSet_ne _ _ _ _ (Ne.symm hdp), hs]
        rfl
      rw [show alKeys (kv0 :: tl) = kv0.1 :: alKeys tl from rfl]
      rw [carrySnapAux_cons]
      simp only [hcash, hexpeq]
      rw [show alSet ([] : Snap) p.currency
            (alGetD ([] : Snap) p.currency 0 + sec.cash_to_date previous_date date)
          = s1 from by
        rw [hs1def]; unfold alSet alGetD alGet; norm_num]
      have hrest : ∀ n ∈ alKeys tl, (p.get_security n).isSome :=
        fun n hn => hres n (List.mem_cons_of_mem _ hn)
      by_cases hexp : sec.is_expired date = true
      · rw [if_pos hexp, if_pos hexp]
        exact carryLoop_set p date previous_date (kv0 :: tl) hdp hs (alKeys tl) s1 hrest
      · rw [if_neg hexp, if_neg hexp]
        simp only [withPositions_positions]
        rw [hgetprev1]
        rw [add_position_some' _ _ _ _ s1 hgetd1]
        simp only [withPositions_positions, withPositions_withPositions, alSet_alSet_self]
        exact carryLoop_set p date previous_date (kv0 :: tl) hdp hs (alKeys tl) _ hrest

/-- Accumulator form of the carry fold: the currency balance at the head is
incremented by every accrual, and non-expired names append their previous
quantities. -/
theorem carrySnapAux_acc (p : Portfolio) (previous_date date : Nat) (snapPrev : Snap) :
    ∀ (names : List String) (c : ℚ) (acc : Snap),
    (∀ n ∈ names, n ≠ p.currency) →
    (∀ n ∈ names, alGet acc n = none) →
    names.Nodup →
    carrySnapAux p previous_date date snapPrev names ((p.currency, c) :: acc)
      = (p.currency, c + (names.map (secCash p previous_date date)).sum) ::
        (acc ++ (names.filter (fun n => !(secExpired p date n))).map
          (fun n => (n, alGetD snapPrev n 0))) := by
  intro names
  induction names with
  | nil =>
      intro c acc _ _ _
      simp [carrySnapAux]
  | cons n rest ih =>
      intro c acc hcur hacc hnd
      have hncur : n ≠ p.currency := hcur n (List.mem_cons_self _ _)
      have haccn : alGet acc n = none := hacc n (List.mem_cons_self _ _)
      have hnrest : n ∉ rest := (List.nodup_cons.mp hnd).1
      rw [carrySnapAux_cons]
      rw [show alGetD ((p.currency, c) :: acc) p.currency 0 = c from by
        unfold alGetD alGet; simp]
      rw [show alSet ((p.currency, c) :: acc) p.currency
            (c + secCash p previous_date date n) =
          (p.currency, c + secCash p previous_date date n) :: acc from by
        unfold alSet; simp]
      by_cases hexp : secExpired p date n = true
      · rw [if_pos hexp]
        rw [ih (c + secCash p previous_date date n) acc
          (fun m hm => hcur m (List.mem_cons_of_mem _ hm))
          (fun m hm => hacc m (List.mem_cons_of_mem _ hm))
          (List.Nodup.of_cons hnd)]
        simp [List.filter_cons, hexp, add_assoc]
      · rw [if_neg hexp]
        rw [Bool.not_eq_true] at hexp
        rw [show alGetD ((p.currency, c + secCash p previous_date date n) :: acc) n 0
            = 0 from by
          unfold alGetD
          rw [show alGet ((p.currency, c + secCash p previous_date date n) :: acc) n
              = none from by simp [alGet, Ne.symm hncur, haccn]]
          rfl]
        rw [show alSet ((p.currency, c + secCash p previous_date date n) :: acc) n
              (0 + alGetD snapPrev n 0)
            = (p.currency, c + secCash p previous_date date n) ::
                (acc ++ [(n, 0 + alGetD snapPrev n 0)]) from by
          rw [alSet_cons, if_neg (Ne.symm hncur), alSet_fresh acc n _ haccn]]
        rw [ih (c + secCash p previous_date date n)
          (acc ++ [(n, 0 + alGetD snapPrev n 0)])
          (fun m hm => hcur m (List.mem_cons_of_mem _ hm))
          (fun m hm => by
            rw [alGet_append_left _ _ _ (hacc m (List.mem_cons_of_mem _ hm))]
            have : n ≠ m := fun he => hnrest (he ▸ hm)
            simp [alGet, this])
          (List.Nodup.of_cons hnd)]
        simp [List.filter_cons, hexp, add_assoc, List.append_assoc]

/-- The carry fold over a snapshot whose names avoid the currency and repeat
no key produces exactly the closed-form carried snapshot. -/
theorem carrySnapAux_closed (p : Portfolio) (previous_date date : Nat) (snapPrev : Snap)
    (hcur : ∀ n ∈ alKeys snapPrev, n ≠ p.currency)
    (hnd : (alKeys snapPrev).Nodup)
    (hne : snapPrev ≠ []) :
    carrySnapAux p previous_date date snapPrev (alKeys snapPrev) []
      = carriedSnap p previous_date date snapPrev := by
  cases snapPrev with
  | nil => exact absurd rfl hne
  | cons kv0 tl =>
      have hkeys : alKeys (kv0 :: tl) = kv0.1 :: alKeys tl := rfl
      rw [hkeys] at hcur hnd ⊢
      have h0cur : kv0.1 ≠ p.currency := hcur kv0.1 (List.mem_cons_self _ _)
      have h0rest : kv0.1 ∉ alKeys tl := (List.nodup_cons.mp hnd).1
      rw [carrySnapAux_cons]
      rw [show alGetD ([] : Snap) p.currency 0 = 0 from rfl]
      rw [show alSet ([] : Snap) p.currency (0 + secCash p previous_date date kv0.1)
          = [(p.currency, 0 + secCash p previous_date date kv0.1)] from rfl]
      by_cases hexp : secExpired p date kv0.1 = true
      · rw [if_pos hexp]
        rw [carrySnapAux_acc p previous_date date (kv0 :: tl) (alKeys tl)
          (0 + secCash p previous_date date kv0.1) []
          (fun m hm => hcur m (List.mem_cons_of_mem _ hm))
          (fun m _ => rfl)
          (List.Nodup.of_cons hnd)]
        unfold carriedSnap
        rw [hkeys]
        simp [List.filter_cons, hexp, add_assoc]
      · rw [if_neg hexp]
        rw [Bool.not_eq_true] at hexp
        rw [show alGetD [(p.currency, 0 + secCash p previous_date date kv0.1)] kv0.1 0
            = 0 from by
          unfold alGetD
          rw [show alGet [(p.currency, 0 + secCash p previous_date date kv0.1)] kv0.1
              = none from by simp [alGet, Ne.symm h0cur]]
          rfl]
        rw [show alSet [(p.currency, 0 + secCash p previous_date date kv0.1)] kv0.1
              (0 + alGetD (kv0 :: tl) kv0.1 0)
            = (p.currency, 0 + secCash p previous_date date kv0.1) ::
                [(kv0.1, 0 + alGetD (kv0 :: tl) kv0.1 0)] from by
          rw [alSet_cons, if_neg (Ne.symm h0cur), alSet_nil]]
        rw [carrySnapAux_acc p previous_date date (kv0 :: tl) (alKeys tl)
          (0 + secCash p previous_date date kv0.1)
          [(kv0.1, 0 + alGetD (kv0 :: tl) kv0.1 0)]
          (fun m hm => hcur m (List.mem_cons_of_mem _ hm))
          (fun m hm => by
            have : kv0.1 ≠ m := fun he => h0rest (he ▸ hm)
            simp [alGet, this])
          (List.Nodup.of_cons hnd)]
        unfold carriedSnap
        rw [hkeys]
        simp [List.filter_cons, hexp, add_assoc]

/-- Closed-form characterization of a successful carry-forward when the
previous snapshot holds no currency entry. -/
theorem carry_to_closed (p : Portfolio) (date previous_date : Nat) (snapPrev : Snap)
    (hd : alGet p.positions date = none)
    (hf : find_lt date (alKeys p.positions) = .ok previous_date)
    (hs : alGet p.positions previous_date = some snapPrev)
    (hne : snapPrev ≠ [])
    (hnd : (alKeys snapPrev).Nodup)
    (hcur : ∀ n ∈ alKeys snapPrev, n ≠ p.currency)
    (hres : ∀ n ∈ alKeys snapPrev, (p.get_security n).isSome) :
    p.carry_to date = .ok (withPositions p (alSet p.positions date
        (carriedSnap p previous_date date snapPrev))) := by
  rw [carry_to_spec p date previous_date snapPrev hd hf hs hne hres,
    carrySnapAux_closed p previous_date date snapPrev hcur hnd hne]

/-! ## Value and metric aggregation -/

/-- The per-name unit value used by `Portfolio.value`: 1 for the currency,
the delegated `value()` otherwise (0 when NaN).  For an unresolvable
non-currency name `Portfolio.value` raises instead; this function is only
compared with it under a resolvability hypothesis. -/
def unitValue (p : Portfolio) (date : Nat) (name : String) : ℚ :=
  if name = p.currency then 1
  else Option.elim (p.get_security name) 0
    (fun sec => Option.elim (sec.value date) 0 id)

theorem buildValueDict_cons (p : Portfolio) (date : Nat) (kv : String × ℚ)
    (rest : List (String × ℚ)) (vd : Snap) :
    buildValueDict p date (kv :: rest) vd
      = if kv.1 = p.currency then
          buildValueDict p date rest (alSet vd kv.1 (1 * kv.2))
        else
          Option.elim (p.get_security kv.1)
            (.error .attributeError)
            (fun sec =>
              Option.elim (sec.value date)
                (buildValueDict p date rest (alSet vd kv.1 (0 * kv.2)))
                (fun u => buildValueDict p date rest (alSet vd kv.1 (u * kv.2)))) := rfl

/-- The value loop, when every non-currency held name resolves and the
snapshot repeats no key, appends one entry `unit value × quantity` per held
name. -/
theorem buildValueDict_spec (p : Portfolio) (date : Nat) :
    ∀ (snap : List (String × ℚ)) (vd : Snap),
    (∀ kv ∈ snap, kv.1 = p.currency ∨ (p.get_security kv.1).isSome) →
    (∀ kv ∈ snap, alGet vd kv.1 = none) →
    (alKeys snap).Nodup →
    buildValueDict p date snap vd
      = .ok (vd ++ snap.map (fun kv => (kv.1, unitValue p date kv.1 * kv.2))) := by
  intro snap
  induction snap with
  | nil =>
      intro vd _ _ _
      simp [buildValueDict]
  | cons kv rest ih =>
      intro vd hres hvd hnd
      have hvd0 : alGet vd kv.1 = none := hvd kv (List.mem_cons_self _ _)
      have h1 : kv.1 ∉ alKeys rest := (List.nodup_cons.mp hnd).1
      have hfresh : ∀ m ∈ rest, ∀ (x : ℚ),
          alGet (alSet vd kv.1 x) m.1 = none := by
        intro m hm x
        have hne : m.1 ≠ kv.1 := by
          intro he
          exact h1 (he ▸ mem_alKeys.mpr ⟨m.2, hm⟩)
        rw [alGet_alSet_ne _ _ _ _ hne]
        exact hvd m (List.mem_cons_of_mem _ hm)
      have happ : ∀ (x : ℚ), alSet vd kv.1 x = vd ++ [(kv.1, x)] :=
        fun x => alSet_fresh vd kv.1 x hvd0
      rw [buildValueDict_cons]
      by_cases hc : kv.1 = p.currency
      · rw [if_pos hc]
        rw [happ, ih _ (fun m hm => hres m (List.mem_cons_of_mem _ hm))
          (fun m hm => by rw [← happ]; exact hfresh m hm _)
          (List.Nodup.of_cons hnd)]
        simp only [List.map_cons]
        rw [show unitValue p date kv.1 = 1 from by unfold unitValue; rw [if_pos hc]]
        simp
      · rw [if_neg hc]
        rcases hres kv (List.mem_cons_self _ _) with hcur | hsome
        · exact absurd hcur hc
        rcases hsec : p.get_security kv.1 with _ | sec
        · rw [hsec] at hsome; simp at hsome
        simp only [Option.elim]
        have hu : unitValue p date kv.1
            = Option.elim (sec.value date) 0 id := by
          unfold unitValue
          rw [if_neg hc, hsec]
          rfl
        rcases hval : sec.value date with _ | u
        · simp only [Option.elim]
          rw [happ, ih _ (fun m hm => hres m (List.mem_cons_of_mem _ hm))
            (fun m hm => by rw [← happ]; exact hfresh m hm _)
            (List.Nodup.of_cons hnd)]
          simp only [List.map_cons]
          rw [show unitValue p date kv.1 = 0 from by rw [hu, hval]; rfl]
          simp
        · simp only [Option.elim]
          rw [happ, ih _ (fun m hm => hres m (List.mem_cons_of_mem _ hm))
            (fun m hm => by rw [← happ]; exact hfresh m hm _)
            (List.Nodup.of_cons hnd)]
          simp only [List.map_cons]
          rw [show unitValue p date kv.1 = u from by rw [hu, hval]; rfl]
          simp

/-- `Portfolio.value` on a materialized date with resolvable holdings
returns the per-name market values and their sum, leaving the state
unchanged. -/
theorem value_spec (p : Portfolio) (date : Nat) (snap : Snap)
    (hsnap : alGet p.positions date = some snap)
    (hres : ∀ kv ∈ snap, kv.1 = p.currency ∨ (p.get_security kv.1).isSome)
    (hnd : (alKeys snap).Nodup) :
    p.value date = .ok (p,
      (snap.map (fun kv => unitValue p date kv.1 * kv.2)).sum,
      snap.map (fun kv => (kv.1, unitValue p date kv.1 * kv.2))) := by
  rw [show p.value date = onOk (p.carry_to date)
        (fun p1 =>
          Option.elim (alGet p1.positions date)
            (.error .keyError)
            (fun snap =>
              onOk (buildValueDict p1 date snap [])
                (fun value_dict => .ok (p1, snapSum value_dict, value_dict)))) from rfl]
  rw [show p.carry_to date = .ok p from by
    rw [show p.carry_to date = Option.elim (alGet p.positions date)
          (onOk (find_lt date (alKeys p.positions))
            (fun previous_date =>
              carryLoop date previous_date
                (alKeys (alGetD p.positions previous_date [])) p))
          (fun _ => .ok p) from rfl]
    rw [hsnap]
    rfl]
  rw [onOk_ok, hsnap]
  simp only [Option.elim]
  rw [buildValueDict_spec p date snap [] hres (fun _ _ => rfl) hnd]
  rw [onOk_ok]
  unfold snapSum
  rw [List.nil_append, List.map_map]
  rfl

theorem buildResultDict_cons (p : Portfolio) (m : MetricName) (date : Nat)
    (kv : String × ℚ) (rest : List (String × ℚ)) (rd : Snap) :
    buildResultDict p m date (kv :: rest) rd
      = buildResultDict p m date rest (alSet rd kv.1 (mRes p m date kv.1)) := rfl

/-- The result loop appends one `mRes` entry per held name. -/
theorem buildResultDict_spec (p : Portfolio) (m : MetricName) (date : Nat) :
    ∀ (snap : List (String × ℚ)) (rd : Snap),
    (∀ kv ∈ snap, alGet rd kv.1 = none) →
    (alKeys snap).Nodup →
    buildResultDict p m date snap rd
      = rd ++ snap.map (fun kv => (kv.1, mRes p m date kv.1)) := by
  intro snap
  induction snap with
  | nil =>
      intro rd _ _
      simp [buildResultDict]
  | cons kv rest ih =>
      intro rd hrd hnd
      have hrd0 : alGet rd kv.1 = none := hrd kv (List.mem_cons_self _ _)
      have h1 : kv.1 ∉ alKeys rest := (List.nodup_cons.mp hnd).1
      rw [buildResultDict_cons,
        alSet_fresh rd kv.1 _ hrd0,
        ih _ (fun mm hm => by
          rw [alGet_append_left _ _ _ (hrd mm (List.mem_cons_of_mem _ hm))]
          have hne : kv.1 ≠ mm.1 := by
            intro he
            exact h1 (he ▸ mem_alKeys.mpr ⟨mm.2, hm⟩)
          simp [alGet, hne])
          (List.Nodup.of_cons hnd)]
      simp

/-- Key lookup in a per-name derived map. -/
theorem alGet_map_of_nodup (l : List (String × ℚ)) (f : String × ℚ → ℚ)
    (hnd : (alKeys l).Nodup) (kv : String × ℚ) (h : kv ∈ l) :
    alGet (l.map (fun x => (x.1, f x))) kv.1 = some (f kv) := by
  have hnd' : (alKeys (l.map (fun x => (x.1, f x)))).Nodup := by
    rw [show alKeys (l.map (fun x => (x.1, f x))) = alKeys l from by
      simp [alKeys, List.map_map, Function.comp]]
    exact hnd
  exact alGet_of_nodup_mem hnd' (by
    exact List.mem_map_of_mem (fun x => (x.1, f x)) h)

theorem list_sum_map_div (l : List (String × ℚ)) (a : String × ℚ → ℚ) (V : ℚ) :
    (l.map (fun kv => a kv / V)).sum = (l.map a).sum / V := by
  simp only [div_eq_mul_inv]
  exact List.sum_map_mul_right l a V⁻¹

/-- The generic metric aggregation on a materialized, non-empty,
resolvable snapshot with non-zero total value returns the value-weighted
average of the per-instrument metric results together with the per-name
breakdown, leaving the state unchanged. -/
theorem metricQuery_spec (p : Portfolio) (m : MetricName) (date : Nat) (snap : Snap)
    (hsnap : alGet p.positions date = some snap)
    (hres : ∀ kv ∈ snap, kv.1 = p.currency ∨ (p.get_security kv.1).isSome)
    (hnd : (alKeys snap).Nodup)
    (hne : snap ≠ [])
    (hV : (snap.map (fun kv => unitValue p date kv.1 * kv.2)).sum ≠ 0) :
    p.metricQuery m date = .ok (p,
      (snap.map (fun kv => (unitValue p date kv.1 * kv.2) * mRes p m date kv.1)).sum
        / (snap.map (fun kv => unitValue p date kv.1 * kv.2)).sum,
      snap.map (fun kv => (kv.1, mRes p m date kv.1))) := by
  rw [show p.metricQuery m date = onOk (p.carry_to date)
        (fun p1 =>
          onOk (p1.value date)
            (fun r =>
              Option.elim (alGet r.1.positions date)
                (.error .keyError)
                (fun snap =>
                  let result_dict := buildResultDict r.1 m date snap []
                  if snap = [] then .ok (r.1, 0, result_dict)
                  else if r.2.1 = 0 then .error .zeroDivision
                  else .ok (r.1,
                    (snap.map (fun kv =>
                      alGetD r.2.2 kv.1 0 * alGetD result_dict kv.1 0 / r.2.1)).sum,
                    result_dict)))) from rfl]
  rw [show p.carry_to date = .ok p from by
    rw [show p.carry_to date = Option.elim (alGet p.positions date)
          (onOk (find_lt date (alKeys p.positions))
            (fun previous_date =>
              carryLoop date previous_date
                (alKeys (alGetD p.positions previous_date [])) p))
          (fun _ => .ok p) from rfl]
    rw [hsnap]
    rfl]
  rw [onOk_ok]
  rw [value_spec p date snap hsnap hres hnd]
  rw [onOk_ok]
  simp only
  rw [hsnap]
  simp only [Option.elim]
  rw [buildResultDict_spec p m date snap [] (fun _ _ => rfl) hnd, List.nil_append]
  rw [if_neg hne, if_neg hV]
  congr 1
  refine Prod.ext rfl (Prod.ext ?_ rfl)
  simp only
  rw [← list_sum_map_div snap
    (fun kv => unitValue p date kv.1 * kv.2 * mRes p m date kv.1)
    ((snap.map (fun kv => unitValue p date kv.1 * kv.2)).sum)]
  refine congrArg List.sum (List.map_congr_left ?_)
  intro kv hkv
  rw [show alGetD (snap.map (fun kv => (kv.1, unitValue p date kv.1 * kv.2))) kv.1 0
      = unitValue p date kv.1 * kv.2 from by
    unfold alGetD
    rw [alGet_map_of_nodup snap (fun kv => unitValue p date kv.1 * kv.2) hnd kv hkv]
    rfl]
  rw [show alGetD (snap.map (fun kv => (kv.1, mRes p m date kv.1))) kv.1 0
      = mRes p m date kv.1 from by
    unfold alGetD
    rw [alGet_map_of_nodup snap (fun kv => mRes p m date kv.1) hnd kv hkv]
    rfl]

/-! ## Claim theorems -/

/-- **C5**: trade merging is commutative and satisfies the weighted-average
law: the merged trade has quantity `a.qty + b.qty` and price
`(a.qty·a.price + b.qty·b.price)/(a.qty + b.qty)`; merging `(10, 100)` with
`(5, 110)` yields `(15, 310/3 ≈ 103.33)`; and any two trades whose
quantities sum to exactly 0 fail to merge with a `ZeroDivisionError`
(the spec's NumericFailure). -/
theorem C5_merge_trades_laws :
    (∀ a b : Trade, merge_trades a b = merge_trades b a) ∧
    (∀ a b : Trade, a.qty + b.qty ≠ 0 →
      merge_trades a b = .ok ⟨a.qty + b.qty,
        (a.qty * a.price + b.qty * b.price) / (a.qty + b.qty)⟩) ∧
    merge_trades ⟨10, 100⟩ ⟨5, 110⟩ = .ok ⟨15, 310/3⟩ ∧
    (∀ a b : Trade, a.qty + b.qty = 0 → merge_trades a b = .error .zeroDivision) := by
  refine ⟨?_, ?_, ?_, ?_⟩
  · intro a b
    unfold merge_trades
    by_cases h : a.qty + b.qty = 0
    · rw [if_pos h, if_pos (by rw [add_comm]; exact h)]
    · rw [if_neg h, if_neg (by rw [add_comm]; exact h)]
      rw [add_comm b.qty a.qty, add_comm (b.qty * b.price) (a.qty * a.price)]
  · intro a b h
    unfold merge_trades
    rw [if_neg h]
  · norm_num [merge_trades]
  · intro a b h
    unfold merge_trades
    rw [if_pos h]

/-- Witness for C5 at concrete trades. -/
theorem C5_merge_trades_laws_witness :
    merge_trades ⟨10, 100⟩ ⟨5, 110⟩ = merge_trades ⟨5, 110⟩ ⟨10, 100⟩ ∧
    merge_trades ⟨10, 100⟩ ⟨5, 110⟩
      = .ok ⟨(10 : ℚ) + 5, ((10 : ℚ) * 100 + 5 * 110) / ((10 : ℚ) + 5)⟩ ∧
    merge_trades ⟨10, 100⟩ ⟨-10, 120⟩ = .error .zeroDivision := by
  refine ⟨C5_merge_trades_laws.1 ⟨10, 100⟩ ⟨5, 110⟩,
    C5_merge_trades_laws.2.1 ⟨10, 100⟩ ⟨5, 110⟩ (by norm_num),
    C5_merge_trades_laws.2.2.2 ⟨10, 100⟩ ⟨-10, 120⟩ (by norm_num)⟩

/-- The empty portfolio of the C4 scenario. -/
def pC4 : Portfolio := Portfolio.init "CUR" []

/-- **C4** (code evaluated at the spec's failing input): on an empty ledger,
`add_trade(0, "X", trade(10, 50))` does not create the positions `X: 500`
and currency `-500`; it raises the `find_lt` `ValueError`
(StructuralFailure) from the carry-forward step, and `value(0)` raises the
same error, contradicting the spec's testable property. -/
theorem C4_add_trade_on_empty_ledger_raises :
    pC4.add_trade 0 "X" ⟨10, 50⟩ = .error .structuralFailure ∧
    pC4.value 0 = .error .structuralFailure := by
  constructor
  · simp [pC4, Portfolio.init, Portfolio.add_trade, Portfolio.apply_trade,
      Portfolio.carry_to, merge_trades, alGet, alGetD, alSet, alKeys, find_lt]
  · simp [pC4, Portfolio.init, Portfolio.value, Portfolio.carry_to,
      alGet, alGetD, alSet, alKeys, find_lt]

/-- **C6**: at a date with no ledger entry at or strictly before it,
carry-forward fails with a StructuralFailure (`ValueError` from `find_lt`),
and so do `value` and every metric query, which propagate it. -/
theorem C6_no_prior_snapshot_structural_failure (p : Portfolio) (date : Nat)
    (hd : alGet p.positions date = none)
    (hbefore : ∀ d ∈ alKeys p.positions, ¬ d < date) :
    p.carry_to date = .error .structuralFailure ∧
    p.value date = .error .structuralFailure ∧
    ∀ m : MetricName, p.metricQuery m date = .error .structuralFailure := by
  have hfind : find_lt date (alKeys p.positions) = .error .structuralFailure :=
    (find_lt_error_iff date (alKeys p.positions)).mpr hbefore
  have hcarry : p.carry_to date = .error .structuralFailure := by
    rw [show p.carry_to date = Option.elim (alGet p.positions date)
          (onOk (find_lt date (alKeys p.positions))
            (fun previous_date =>
              carryLoop date previous_date
                (alKeys (alGetD p.positions previous_date [])) p))
          (fun _ => .ok p) from rfl]
    rw [hd]
    simp only [Option.elim]
    rw [hfind, onOk_error]
  refine ⟨hcarry, ?_, ?_⟩
  · rw [show p.value date = onOk (p.carry_to date)
        (fun p1 =>
          Option.elim (alGet p1.positions date)
            (.error .keyError)
            (fun snap =>
              onOk (buildValueDict p1 date snap [])
                (fun value_dict => .ok (p1, snapSum value_dict, value_dict)))) from rfl]
    rw [hcarry, onOk_error]
  · intro m
    rw [show p.metricQuery m date = onOk (p.carry_to date)
          (fun p1 =>
            onOk (p1.value date)
              (fun r =>
                Option.elim (alGet r.1.positions date)
                  (.error .keyError)
                  (fun snap =>
                    let result_dict := buildResultDict r.1 m date snap []
                    if snap = [] then .ok (r.1, 0, result_dict)
                    else if r.2.1 = 0 then .error .zeroDivision
                    else .ok (r.1,
                      (snap.map (fun kv =>
                        alGetD r.2.2 kv.1 0 * alGetD result_dict kv.1 0 / r.2.1)).sum,
                      result_dict)))) from rfl]
    rw [hcarry, onOk_error]

/-- The C6 witness portfolio: a single snapshot at date 5. -/
def pC6 : Portfolio := ⟨[(5, [("X", 1)])], [], "CUR", []⟩

/-- Witness for C6: querying at date 3, strictly before the earliest ledger
entry (5), fails structurally. -/
theorem C6_no_prior_snapshot_structural_failure_witness :
    pC6.carry_to 3 = .error .structuralFailure ∧
    pC6.value 3 = .error .structuralFailure ∧
    pC6.metricQuery .oas 3 = .error .structuralFailure := by
  have h := C6_no_prior_snapshot_structural_failure pC6 3
    (by simp [pC6, alGet])
    (by intro d hd; simp [pC6, alKeys] at hd; omega)
  exact ⟨h.1, h.2.1, h.2.2 .oas⟩

/-- Definitional unfolding of `carry_to`. -/
theorem carry_to_def (p : Portfolio) (date : Nat) :
    p.carry_to date = Option.elim (alGet p.positions date)
      (onOk (find_lt date (alKeys p.positions))
        (fun previous_date =>
          carryLoop date previous_date
            (alKeys (alGetD p.positions previous_date [])) p))
      (fun _ => .ok p) := rfl

/-- Definitional unfolding of `value`. -/
theorem value_def (p : Portfolio) (date : Nat) :
    p.value date = onOk (p.carry_to date)
      (fun p1 =>
        Option.elim (alGet p1.positions date)
          (.error .keyError)
          (fun snap =>
            onOk (buildValueDict p1 date snap [])
              (fun value_dict => .ok (p1, snapSum value_dict, value_dict)))) := rfl

/-- Definitional unfolding of `metricQuery`. -/
theorem metricQuery_def (p : Portfolio) (m : MetricName) (date : Nat) :
    p.metricQuery m date = onOk (p.carry_to date)
      (fun p1 =>
        onOk (p1.value date)
          (fun r =>
            Option.elim (alGet r.1.positions date)
              (.error .keyError)
              (fun snap =>
                let result_dict := buildResultDict r.1 m date snap []
                if snap = [] then .ok (r.1, 0, result_dict)
                else if r.2.1 = 0 then .error .zeroDivision
                else .ok (r.1,
                  (snap.map (fun kv =>
                    alGetD r.2.2 kv.1 0 * alGetD result_dict kv.1 0 / r.2.1)).sum,
                  result_dict)))) := rfl

/-- `carry_to` is a no-op on an already-materialized date. -/
theorem carry_to_materialized (p : Portfolio) (date : Nat)
    (h : (alGet p.positions date).isSome) : p.carry_to date = .ok p := by
  rw [carry_to_def]
  rcases hx : alGet p.positions date with _ | s
  · rw [hx] at h; simp at h
  · rfl

/-- A metric query at a materialized date whose (non-empty) snapshot totals
to value 0 raises the weighting `ZeroDivisionError`. -/
theorem metricQuery_zero_total (p : Portfolio) (date : Nat) (snap vd : Snap)
    (hsnap : alGet p.positions date = some snap)
    (hne : snap ≠ [])
    (hzero : p.value date = .ok (p, 0, vd)) :
    ∀ m : MetricName, p.metricQuery m date = .error .zeroDivision := by
  intro m
  rw [metricQuery_def, carry_to_materialized p date (by rw [hsnap]; rfl),
    onOk_ok, hzero, onOk_ok]
  simp only
  rw [hsnap]
  simp only [Option.elim]
  rw [if_neg hne]
  simp

/-- **C7**: at a materialized date with a non-empty snapshot whose total
value is 0, every metric query fails with the `ZeroDivisionError` that the
spec calls DegenerateValuationError, instead of returning a weighted
result. -/
theorem C7_zero_total_value_degenerate (p : Portfolio) (date : Nat) (snap vd : Snap)
    (hsnap : alGet p.positions date = some snap)
    (hne : snap ≠ [])
    (hzero : p.value date = .ok (p, 0, vd)) :
    ∀ m : MetricName, p.metricQuery m date = .error .zeroDivision :=
  metricQuery_zero_total p date snap vd hsnap hne hzero

/-- The C7 witness portfolio: only a zero currency balance at date 0. -/
def pC7 : Portfolio := ⟨[(0, [("CUR", 0)])], [], "CUR", []⟩

/-- Witness for C7: total value 0 at date 0, `ytm` raises. -/
theorem C7_zero_total_value_degenerate_witness :
    pC7.metricQuery .ytm 0 = .error .zeroDivision := by
  refine C7_zero_total_value_degenerate pC7 0 [("CUR", 0)] [("CUR", 0)]
    (by simp [pC7, alGet]) (by simp) ?_ .ytm
  simp [pC7, Portfolio.value, Portfolio.carry_to, buildValueDict,
    alGet, alGetD, alSet, alKeys, snapSum]

/-- The C1 example securities: unit value 1, `ytm = 0.05` for `A` and
`ytm = 0.08` for `B`. -/
def secA : Security :=
  ⟨some "A", none, fun _ => some 1, fun _ => false, fun _ _ => 0,
   fun m => if m = .ytm then some (fun _ => some (1/20)) else none⟩

def secB : Security :=
  ⟨some "B", none, fun _ => some 1, fun _ => false, fun _ _ => 0,
   fun m => if m = .ytm then some (fun _ => some (2/25)) else none⟩

/-- The C1 example portfolio: values `{A: 60, B: 40}`. -/
def pC1 : Portfolio := ⟨[(0, [("A", 60), ("B", 40)])], [], "CUR", [secA, secB]⟩

/-- **C1**: for every metric (the nine aggregation methods share
`metricQuery`) at a materialized date whose non-empty snapshot resolves and
has non-zero total value, `value` returns the per-name values
`value_i = unit value × quantity` and the metric query returns exactly the
pair `(Σ value_i·metric_i / Σ value_i, {name: metric_i})`; and on the
two-instrument portfolio with values `{A: 60, B: 40}` and per-instrument
ytm `{A: 0.05, B: 0.08}` the aggregate ytm is `0.062 = 31/500`. -/
theorem C1_weighted_average_aggregation :
    (∀ (p : Portfolio) (m : MetricName) (date : Nat) (snap : Snap),
      alGet p.positions date = some snap →
      (∀ kv ∈ snap, kv.1 = p.currency ∨ (p.get_security kv.1).isSome) →
      (alKeys snap).Nodup →
      snap ≠ [] →
      (snap.map (fun kv => unitValue p date kv.1 * kv.2)).sum ≠ 0 →
      p.value date = .ok (p,
        (snap.map (fun kv => unitValue p date kv.1 * kv.2)).sum,
        snap.map (fun kv => (kv.1, unitValue p date kv.1 * kv.2))) ∧
      p.metricQuery m date = .ok (p,
        (snap.map (fun kv => (unitValue p date kv.1 * kv.2) * mRes p m date kv.1)).sum
          / (snap.map (fun kv => unitValue p date kv.1 * kv.2)).sum,
        snap.map (fun kv => (kv.1, mRes p m date kv.1)))) ∧
    stripState (pC1.ytm 0) = .ok (31/500, [("A", 1/20), ("B", 2/25)]) := by
  constructor
  · intro p m date snap hsnap hres hnd hne hV
    exact ⟨value_spec p date snap hsnap hres hnd,
      metricQuery_spec p m date snap hsnap hres hnd hne hV⟩
  · simp [Portfolio.ytm, Portfolio.metricQuery, Portfolio.value, Portfolio.carry_to,
      buildValueDict, buildResultDict, mRes, Portfolio.get_security, findSecurity,
      alGet, alGetD, alSet, alKeys, find_lt, snapSum, pC1, secA, secB]
    norm_num

/-- Witness for C1's general clause at the concrete two-instrument
portfolio. -/
theorem C1_weighted_average_aggregation_witness :
    pC1.value 0 = .ok (pC1,
      ([("A", (60 : ℚ)), ("B", 40)].map
        (fun kv => unitValue pC1 0 kv.1 * kv.2)).sum,
      [("A", (60 : ℚ)), ("B", 40)].map
        (fun kv => (kv.1, unitValue pC1 0 kv.1 * kv.2))) ∧
    pC1.metricQuery .ytm 0 = .ok (pC1,
      ([("A", (60 : ℚ)), ("B", 40)].map
        (fun kv => (unitValue pC1 0 kv.1 * kv.2) * mRes pC1 .ytm 0 kv.1)).sum
        / ([("A", (60 : ℚ)), ("B", 40)].map
            (fun kv => unitValue pC1 0 kv.1 * kv.2)).sum,
      [("A", (60 : ℚ)), ("B", 40)].map
        (fun kv => (kv.1, mRes pC1 .ytm 0 kv.1))) := by
  refine C1_weighted_average_aggregation.1 pC1 .ytm 0 [("A", 60), ("B", 40)]
    (by simp [pC1, alGet]) ?_ (by simp [alKeys]) (by simp) ?_
  · intro kv hkv
    right
    rcases List.mem_cons.mp hkv with h | h
    · subst h
      simp [pC1, Portfolio.get_security, findSecurity, secA]
    · rcases List.mem_cons.mp h with h | h
      · subst h
        simp [pC1, Portfolio.get_security, findSecurity, secA, secB]
      · simp at h
  · simp [pC1, unitValue, Portfolio.get_security, findSecurity, secA, secB]
    norm_num

/-- The C2 counterexample portfolio: a materialized date holding a
non-currency name with an empty instrument collection. -/
def pC2 : Portfolio := ⟨[(0, [("X", 1)])], [], "CUR", []⟩

/-- **C2 counterexample**: the claim says a resolver lookup failure for a
held name is substituted by 0 and never aborts a metric query, but at a
materialized date holding the unresolvable name `X`, `ytm` aborts with the
`AttributeError` raised by `[None].value(...)` inside the nested `value`
computation. -/
theorem C2_lookup_failure_aborts_counterexample :
    pC2.metricQuery .ytm 0 = .error .attributeError := by
  simp [Portfolio.metricQuery, Portfolio.value, Portfolio.carry_to,
    buildValueDict, Portfolio.get_security, findSecurity,
    alGet, alGetD, alSet, alKeys, find_lt, snapSum, pC2]

/-- **C2 (amended)**: at a materialized date where every held non-currency
name resolves, per-instrument metric failures — a missing metric capability
(`AttributeError`, caught) or a NaN metric result — and NaN unit values are
substituted by 0 and never abort; the query returns a weighted result whose
breakdown covers every held name.  A resolver lookup failure, by contrast,
aborts the query inside the unprotected `value` computation (see the
counterexample), so resolvability is a hypothesis here, not a tolerated
failure. -/
theorem C2_local_failures_zero_substituted :
    (∀ (p : Portfolio) (m : MetricName) (date : Nat) (snap : Snap),
      alGet p.positions date = some snap →
      (∀ kv ∈ snap, kv.1 = p.currency ∨ (p.get_security kv.1).isSome) →
      (alKeys snap).Nodup →
      snap ≠ [] →
      (snap.map (fun kv => unitValue p date kv.1 * kv.2)).sum ≠ 0 →
      ∃ total rd, p.metricQuery m date = .ok (p, total, rd) ∧
        ∀ kv ∈ snap, alGet rd kv.1 = some (mRes p m date kv.1)) ∧
    (∀ (p : Portfolio) (m : MetricName) (date : Nat) (n : String),
      p.get_security n = none → mRes p m date n = 0) ∧
    (∀ (p : Portfolio) (m : MetricName) (date : Nat) (n : String) (sec : Security),
      p.get_security n = some sec → sec.metric m = none → mRes p m date n = 0) ∧
    (∀ (p : Portfolio) (m : MetricName) (date : Nat) (n : String) (sec : Security)
      (f : Nat → Option ℚ),
      p.get_security n = some sec → sec.metric m = some f → f date = none →
      mRes p m date n = 0) := by
  refine ⟨?_, ?_, ?_, ?_⟩
  · intro p m date snap hsnap hres hnd hne hV
    refine ⟨_, _, metricQuery_spec p m date snap hsnap hres hnd hne hV, ?_⟩
    intro kv hkv
    exact alGet_map_of_nodup snap (fun kv => mRes p m date kv.1) hnd kv hkv
  · intro p m date n h
    unfold mRes
    rw [h]
    rfl
  · intro p m date n sec h hm
    unfold mRes
    rw [h]
    simp only [Option.elim]
    rw [hm]
  · intro p m date n sec f h hm hf
    unfold mRes
    rw [h]
    simp only [Option.elim]
    rw [hm]
    simp only [Option.elim]
    rw [hf]

/-- C2 witness fixtures: `N1` resolves but lacks the `ytm` capability;
`N2` resolves and returns NaN for `ytm`. -/
def secN1 : Security :=
  ⟨some "N1", none, fun _ => some 2, fun _ => false, fun _ _ => 0, fun _ => none⟩

def secN2 : Security :=
  ⟨some "N2", none, fun _ => some 3, fun _ => false, fun _ _ => 0,
   fun _ => some (fun _ => none)⟩

def pC2w : Portfolio := ⟨[(0, [("N1", 5), ("N2", 5)])], [], "CUR", [secN1, secN2]⟩

/-- Witness for C2 (amended): both metric failures are zero-substituted,
the query succeeds and covers both names. -/
theorem C2_local_failures_zero_substituted_witness :
    (∃ total rd, pC2w.metricQuery .ytm 0 = .ok (pC2w, total, rd) ∧
      ∀ kv ∈ ([("N1", (5 : ℚ)), ("N2", 5)] : Snap),
        alGet rd kv.1 = some (mRes pC2w .ytm 0 kv.1)) ∧
    mRes pC2w .ytm 0 "N1" = 0 ∧
    mRes pC2w .ytm 0 "N2" = 0 := by
  refine ⟨C2_local_failures_zero_substituted.1 pC2w .ytm 0 [("N1", 5), ("N2", 5)]
      (by simp [pC2w, alGet]) ?_ (by simp [alKeys]) (by simp) ?_, ?_, ?_⟩
  · intro kv hkv
    right
    rcases List.mem_cons.mp hkv with h | h
    · subst h
      simp [pC2w, Portfolio.get_security, findSecurity, secN1]
    · rcases List.mem_cons.mp h with h | h
      · subst h
        simp [pC2w, Portfolio.get_security, findSecurity, secN1, secN2]
      · simp at h
  · simp [pC2w, unitValue, Portfolio.get_security, findSecurity, secN1, secN2]
    norm_num
  · exact C2_local_failures_zero_substituted.2.2.1 pC2w .ytm 0 "N1" secN1
      (by simp [pC2w, Portfolio.get_security, findSecurity, secN1]) rfl
  · exact C2_local_failures_zero_substituted.2.2.2 pC2w .ytm 0 "N2" secN2
      (fun _ => none)
      (by simp [pC2w, Portfolio.get_security, findSecurity, secN1, secN2]) rfl rfl

/-- A successful carry followed by a query behaves like the query on the
carried state. -/
theorem value_of_carry (p q : Portfolio) (date : Nat)
    (hc : p.carry_to date = .ok q)
    (hsome : (alGet q.positions date).isSome) :
    p.value date = q.value date := by
  rw [value_def p date, value_def q date, hc, carry_to_materialized q date hsome]

theorem metricQuery_of_carry (p q : Portfolio) (m : MetricName) (date : Nat)
    (hc : p.carry_to date = .ok q)
    (hsome : (alGet q.positions date).isSome) :
    p.metricQuery m date = q.metricQuery m date := by
  rw [metricQuery_def, metricQuery_def, hc, carry_to_materialized q date hsome]

theorem alKeys_carriedSnap (p : Portfolio) (previous_date date : Nat) (snapPrev : Snap) :
    alKeys (carriedSnap p previous_date date snapPrev)
      = p.currency :: (alKeys snapPrev).filter (fun n => !(secExpired p date n)) := by
  unfold carriedSnap
  rw [show alKeys ((p.currency,
        ((alKeys snapPrev).map (secCash p previous_date date)).sum) ::
      ((alKeys snapPrev).filter (fun n => !(secExpired p date n))).map
        (fun n => (n, alGetD snapPrev n 0)))
    = p.currency :: alKeys (((alKeys snapPrev).filter
        (fun n => !(secExpired p date n))).map
          (fun n => (n, alGetD snapPrev n 0))) from rfl]
  unfold alKeys
  rw [List.map_map]
  rw [show (Prod.fst ∘ fun n => ((n : String), alGetD snapPrev n 0)) = fun n => n from rfl]
  rw [List.map_id']

theorem carriedSnap_nodup (p : Portfolio) (previous_date date : Nat) (snapPrev : Snap)
    (hcur : ∀ n ∈ alKeys snapPrev, n ≠ p.currency)
    (hnd : (alKeys snapPrev).Nodup) :
    (alKeys (carriedSnap p previous_date date snapPrev)).Nodup := by
  rw [alKeys_carriedSnap, List.nodup_cons]
  exact ⟨fun hmem => hcur _ (List.mem_of_mem_filter hmem) rfl, hnd.filter _⟩

theorem carriedSnap_resolvable (p : Portfolio) (previous_date date : Nat) (snapPrev : Snap)
    (hres : ∀ n ∈ alKeys snapPrev, (p.get_security n).isSome) :
    ∀ kv ∈ carriedSnap p previous_date date snapPrev,
      kv.1 = p.currency ∨ (p.get_security kv.1).isSome := by
  intro kv hkv
  rcases List.mem_cons.mp hkv with h | h
  · left; rw [h]
  · right
    rcases List.mem_map.mp h with ⟨n, hn, he⟩
    rw [← he]
    exact hres n (List.mem_of_mem_filter hn)

/-- **C8**: an instrument held at the previous snapshot that is expired at
the carry target date is absent from the materialized position map, and the
currency balance holds exactly the sum of the `cash_to_date` accruals of
all previously held names — no redemption or exercise value is credited. -/
theorem C8_expired_position_dropped (p : Portfolio) (date previous_date : Nat)
    (snapPrev : Snap) (nameE : String)
    (hd : alGet p.positions date = none)
    (hf : find_lt date (alKeys p.positions) = .ok previous_date)
    (hs : alGet p.positions previous_date = some snapPrev)
    (hne : snapPrev ≠ [])
    (hnd : (alKeys snapPrev).Nodup)
    (hcur : ∀ n ∈ alKeys snapPrev, n ≠ p.currency)
    (hres : ∀ n ∈ alKeys snapPrev, (p.get_security n).isSome)
    (hmem : nameE ∈ alKeys snapPrev)
    (hexp : secExpired p date nameE = true) :
    ∃ p', p.carry_to date = .ok p' ∧
      alGet (alGetD p'.positions date []) nameE = none ∧
      alGet (alGetD p'.positions date []) p.currency
        = some (((alKeys snapPrev).map (secCash p previous_date date)).sum) := by
  refine ⟨_, carry_to_closed p date previous_date snapPrev hd hf hs hne hnd hcur hres,
    ?_, ?_⟩
  all_goals
    rw [show alGetD (withPositions p (alSet p.positions date
          (carriedSnap p previous_date date snapPrev))).positions date []
        = carriedSnap p previous_date date snapPrev from by
      simp only [withPositions_positions]
      unfold alGetD
      rw [alGet_alSet_self]
      rfl]
  · unfold carriedSnap
    rw [alGet_cons]
    rw [if_neg (by exact Ne.symm (hcur nameE hmem))]
    refine alGet_map_pair_none _ _ _ ?_
    intro hmf
    have := (List.mem_filter.mp hmf).2
    rw [hexp] at this
    simp at this
  · unfold carriedSnap
    rw [alGet_cons]
    rw [if_pos rfl]

/-- C8 witness securities: `C` survives, `D` expires at the target date. -/
def secC8C : Security :=
  ⟨some "C", none, fun _ => some 5, fun _ => false, fun _ _ => 3, fun _ => none⟩

def secC8D : Security :=
  ⟨some "D", none, fun _ => some 3, fun d => decide (d ≥ 2), fun _ _ => (1 : ℚ)/2,
   fun _ => none⟩

def pC8 : Portfolio := ⟨[(0, [("C", 10), ("D", 4)])], [], "CUR", [secC8C, secC8D]⟩

/-- Witness for C8: carrying `{C: 10, D: 4}` from date 0 to date 3 drops
the expired `D` and credits exactly `3 + 1/2` of accrued cash. -/
theorem C8_expired_position_dropped_witness :
    ∃ p', pC8.carry_to 3 = .ok p' ∧
      alGet (alGetD p'.positions 3 []) "D" = none ∧
      alGet (alGetD p'.positions 3 []) "CUR"
        = some (((alKeys ([("C", (10 : ℚ)), ("D", 4)] : Snap)).map
            (secCash pC8 0 3)).sum) := by
  refine C8_expired_position_dropped pC8 3 0 [("C", 10), ("D", 4)] "D"
    (by simp [pC8, alGet]) ?_ (by simp [pC8, alGet]) (by simp) (by simp [alKeys])
    ?_ ?_ (by simp [alKeys]) ?_
  · simp [pC8, find_lt, alKeys, alGet]
  · intro n hn
    simp [alKeys] at hn
    rcases hn with h | h <;> simp [h, pC8]
  · intro n hn
    simp [alKeys] at hn
    rcases hn with h | h <;>
      simp [h, pC8, Portfolio.get_security, findSecurity, secC8C, secC8D]
  · simp [pC8, secExpired, Portfolio.get_security, findSecurity, secC8C, secC8D]

/-- **C10**: metric queries are not read-only.  At a date not in the ledger
but with a strictly earlier snapshot (whose names resolve and avoid the
currency), `value` succeeds and returns a *mutated* portfolio: the new state
has a ledger entry at the queried date while every other date's snapshot is
unchanged; every other metric query returns the same mutated state when it
succeeds (and can only fail with the degenerate-valuation error). -/
theorem C10_queries_materialize_date (p : Portfolio) (date previous_date : Nat)
    (snapPrev : Snap)
    (hd : alGet p.positions date = none)
    (hf : find_lt date (alKeys p.positions) = .ok previous_date)
    (hs : alGet p.positions previous_date = some snapPrev)
    (hne : snapPrev ≠ [])
    (hnd : (alKeys snapPrev).Nodup)
    (hcur : ∀ n ∈ alKeys snapPrev, n ≠ p.currency)
    (hres : ∀ n ∈ alKeys snapPrev, (p.get_security n).isSome) :
    ∃ p' V vd, p.value date = .ok (p', V, vd) ∧
      alGet p.positions date = none ∧
      (alGet p'.positions date).isSome ∧
      (∀ d2, d2 ≠ date → alGet p'.positions d2 = alGet p.positions d2) ∧
      (∀ m : MetricName, p.metricQuery m date = .error .zeroDivision ∨
        ∃ t rd, p.metricQuery m date = .ok (p', t, rd)) := by
  have hclosed := carry_to_closed p date previous_date snapPrev hd hf hs hne hnd hcur hres
  set cs := carriedSnap p previous_date date snapPrev with hcs
  set q := withPositions p (alSet p.positions date cs) with hqdef
  have hq : alGet q.positions date = some cs := by
    rw [hqdef, withPositions_positions]
    exact alGet_alSet_self _ _ _
  have hres' : ∀ kv ∈ cs, kv.1 = q.currency ∨ (q.get_security kv.1).isSome := by
    rw [hqdef]
    simp only [withPositions_currency, withPositions_get_security]
    exact carriedSnap_resolvable p previous_date date snapPrev hres
  have hnd' : (alKeys cs).Nodup := carriedSnap_nodup p previous_date date snapPrev hcur hnd
  have hcs_ne : cs ≠ [] := by rw [hcs]; unfold carriedSnap; exact List.cons_ne_nil _ _
  have hvq := value_spec q date cs hq hres' hnd'
  have hvp : p.value date = q.value date :=
    value_of_carry p q date hclosed (by rw [hq]; rfl)
  have hmqeq : ∀ m : MetricName, p.metricQuery m date = q.metricQuery m date :=
    fun m => metricQuery_of_carry p q m date hclosed (by rw [hq]; rfl)
  refine ⟨q, _, _, by rw [hvp]; exact hvq, hd, by rw [hq]; rfl, ?_, ?_⟩
  · intro d2 hd2
    rw [hqdef, withPositions_positions]
    exact alGet_alSet_ne _ _ _ _ hd2
  · intro m
    by_cases hV0 : (cs.map (fun kv => unitValue q date kv.1 * kv.2)).sum = 0
    · left
      rw [hmqeq m]
      refine metricQuery_zero_total q date cs
        (cs.map (fun kv => (kv.1, unitValue q date kv.1 * kv.2))) hq hcs_ne ?_ m
      rw [← hV0]
      exact hvq
    · right
      exact ⟨_, _, by rw [hmqeq m]; exact metricQuery_spec q m date cs hq hres' hnd' hcs_ne hV0⟩

/-- C10 witness security: constant value 5, accrues 1 of cash, never
expires. -/
def secC10 : Security :=
  ⟨some "C", none, fun _ => some 5, fun _ => false, fun _ _ => 1, fun _ => none⟩

def pC10 : Portfolio := ⟨[(0, [("C", 10)])], [], "CUR", [secC10]⟩

/-- Witness for C10: querying `value` at date 3 inserts the ledger entry at
3 as a side effect and leaves date 0 unchanged. -/
theorem C10_queries_materialize_date_witness :
    ∃ p' V vd, pC10.value 3 = .ok (p', V, vd) ∧
      alGet pC10.positions 3 = none ∧
      (alGet p'.positions 3).isSome ∧
      (∀ d2, d2 ≠ 3 → alGet p'.positions d2 = alGet pC10.positions d2) ∧
      (∀ m : MetricName, pC10.metricQuery m 3 = .error .zeroDivision ∨
        ∃ t rd, pC10.metricQuery m 3 = .ok (p', t, rd)) := by
  refine C10_queries_materialize_date pC10 3 0 [("C", 10)]
    (by simp [pC10, alGet]) ?_ (by simp [pC10, alGet]) (by simp) (by simp [alKeys])
    ?_ ?_
  · simp [pC10, find_lt, alKeys, alGet]
  · intro n hn
    simp [alKeys] at hn
    simp [hn, pC10]
  · intro n hn
    simp [alKeys] at hn
    simp [hn, pC10, Portfolio.get_security, findSecurity, secC10]

@[simp] theorem unitValue_withPositions (p : Portfolio) (P : List (Nat × Snap))
    (date : Nat) (n : String) :
    unitValue (withPositions p P) date n = unitValue p date n := rfl

/-- **C3 (amended)**: carry-forward from the nearest prior snapshot — when
that snapshot has no currency entry, its names resolve and repeat no key,
no instrument is expired at the target date, and each instrument's unit
value is unchanged between the two dates — carries each held quantity
unchanged and credits the accrued cash, so that
`value(d2) = value(d1) + Σ cash_to_date(d1, d2)`. -/
theorem C3_carry_value_accrual (p : Portfolio) (date previous_date : Nat)
    (snapPrev : Snap)
    (hd : alGet p.positions date = none)
    (hf : find_lt date (alKeys p.positions) = .ok previous_date)
    (hs : alGet p.positions previous_date = some snapPrev)
    (hne : snapPrev ≠ [])
    (hnd : (alKeys snapPrev).Nodup)
    (hcur : ∀ n ∈ alKeys snapPrev, n ≠ p.currency)
    (hres : ∀ n ∈ alKeys snapPrev, (p.get_security n).isSome)
    (hnoexp : ∀ n ∈ alKeys snapPrev, secExpired p date n = false)
    (hconst : ∀ n ∈ alKeys snapPrev, ∀ sec : Security,
      p.get_security n = some sec → sec.value previous_date = sec.value date) :
    ∃ p' V1 vd1 V2 vd2,
      p.carry_to date = .ok p' ∧
      p.value previous_date = .ok (p, V1, vd1) ∧
      p'.value date = .ok (p', V2, vd2) ∧
      (∀ kv ∈ snapPrev, alGet (alGetD p'.positions date []) kv.1 = some kv.2) ∧
      V2 = V1 + ((alKeys snapPrev).map (secCash p previous_date date)).sum := by
  have hclosed := carry_to_closed p date previous_date snapPrev hd hf hs hne hnd hcur hres
  set cs := carriedSnap p previous_date date snapPrev with hcs
  set q := withPositions p (alSet p.positions date cs) with hqdef
  have hq : alGet q.positions date = some cs := by
    rw [hqdef, withPositions_positions]
    exact alGet_alSet_self _ _ _
  have hres' : ∀ kv ∈ cs, kv.1 = q.currency ∨ (q.get_security kv.1).isSome := by
    rw [hqdef]
    simp only [withPositions_currency, withPositions_get_security]
    exact carriedSnap_resolvable p previous_date date snapPrev hres
  have hnd' : (alKeys cs).Nodup := carriedSnap_nodup p previous_date date snapPrev hcur hnd
  have hres1 : ∀ kv ∈ snapPrev, kv.1 = p.currency ∨ (p.get_security kv.1).isSome :=
    fun kv hkv => Or.inr (hres kv.1 (mem_alKeys.mpr ⟨kv.2, hkv⟩))
  have hfilt : (alKeys snapPrev).filter (fun n => !(secExpired p date n))
      = alKeys snapPrev :=
    List.filter_eq_self.mpr (fun n hn => by rw [hnoexp n hn]; rfl)
  have hgetcs : alGetD q.positions date [] = cs := by
    rw [hqdef, withPositions_positions]
    unfold alGetD
    rw [alGet_alSet_self]
    rfl
  refine ⟨q, _, _, _, _, hclosed,
    value_spec p previous_date snapPrev hs hres1 hnd,
    value_spec q date cs hq hres' hnd', ?_, ?_⟩
  · intro kv hkv
    rw [hgetcs, hcs]
    unfold carriedSnap
    rw [alGet_cons,
      if_neg (Ne.symm (hcur kv.1 (mem_alKeys.mpr ⟨kv.2, hkv⟩))),
      hfilt,
      alGet_map_pair (alKeys snapPrev) _ kv.1 (mem_alKeys.mpr ⟨kv.2, hkv⟩)]
    rw [show alGetD snapPrev kv.1 0 = kv.2 from by
      unfold alGetD
      rw [alGet_of_nodup_mem hnd hkv]
      rfl]
  · rw [hcs]
    unfold carriedSnap
    rw [hfilt]
    rw [List.map_cons, List.sum_cons]
    rw [show unitValue q date p.currency = 1 from by
      rw [hqdef, unitValue_withPositions]
      unfold unitValue
      rw [if_pos rfl]]
    rw [one_mul]
    rw [List.map_map]
    rw [show ((alKeys snapPrev).map
          ((fun kv => unitValue q date kv.1 * kv.2) ∘ fun n => (n, alGetD snapPrev n 0)))
        = snapPrev.map (fun kv => unitValue p previous_date kv.1 * kv.2) from by
      unfold alKeys
      rw [List.map_map]
      refine List.map_congr_left ?_
      intro kv hkv
      simp only [Function.comp]
      rw [hqdef, unitValue_withPositions]
      rw [show alGetD snapPrev kv.1 0 = kv.2 from by
        unfold alGetD
        rw [alGet_of_nodup_mem hnd hkv]
        rfl]
      have hkey : kv.1 ∈ alKeys snapPrev := mem_alKeys.mpr ⟨kv.2, hkv⟩
      have hc : kv.1 ≠ p.currency := hcur kv.1 hkey
      rcases hsec : p.get_security kv.1 with _ | sec
      · have := hres kv.1 hkey
        rw [hsec] at this
        simp at this
      · rw [show unitValue p date kv.1
            = Option.elim (sec.value date) 0 id from by
          unfold unitValue
          rw [if_neg hc, hsec]
          rfl]
        rw [show unitValue p previous_date kv.1
            = Option.elim (sec.value previous_date) 0 id from by
          unfold unitValue
          rw [if_neg hc, hsec]
          rfl]
        rw [hconst kv.1 hkey sec hsec]]
    exact add_comm _ _

/-- The C3 counterexample security: unit value 5 at date 0 but 7 at later
dates, zero interim cash, never expired. -/
def secCE3 : Security :=
  ⟨some "C", none, fun d => some (if d = 0 then 5 else 7), fun _ => false,
   fun _ _ => 0, fun _ => none⟩

def pCE3 : Portfolio := ⟨[(0, [("C", 10)])], [], "CUR", [secCE3]⟩

/-- **C3 counterexample**: with no trades and no expiries between dates 0
and 3 and zero accrued cash, `value(3) = 70 ≠ 50 + 0 = value(0) + Σ
cash_to_date`, because the instrument's unit value changed between the
dates — the claim's identity fails on the code as stated. -/
theorem C3_carry_value_accrual_counterexample :
    stripState (pCE3.value 0) = .ok (50, [("C", 50)]) ∧
    stripState (onOk (pCE3.carry_to 3) (fun q => q.value 3))
      = .ok (70, [("CUR", 0), ("C", 70)]) ∧
    secCE3.cash_to_date 0 3 = 0 ∧
    (70 : ℚ) ≠ 50 + secCE3.cash_to_date 0 3 := by
  refine ⟨?_, ?_, rfl, by norm_num [secCE3]⟩
  · simp [pCE3, secCE3, Portfolio.value, Portfolio.carry_to, buildValueDict,
      Portfolio.get_security, findSecurity, unitValue,
      alGet, alGetD, alSet, alKeys, find_lt, snapSum]
    norm_num
  · simp [pCE3, secCE3, Portfolio.value, Portfolio.carry_to, carryLoop,
      Portfolio.add_position, buildValueDict, Portfolio.get_security, findSecurity,
      alGet, alGetD, alSet, alKeys, find_lt, snapSum]
    norm_num

/-- The C3 witness security: constant unit value 5, accrues 1 of cash. -/
def secC3w : Security :=
  ⟨some "C", none, fun _ => some 5, fun _ => false, fun _ _ => 1, fun _ => none⟩

def pC3w : Portfolio := ⟨[(0, [("C", 10)])], [], "CUR", [secC3w]⟩

/-- Witness for C3 (amended) at a concrete constant-price portfolio. -/
theorem C3_carry_value_accrual_witness :
    ∃ p' V1 vd1 V2 vd2,
      pC3w.carry_to 3 = .ok p' ∧
      pC3w.value 0 = .ok (pC3w, V1, vd1) ∧
      p'.value 3 = .ok (p', V2, vd2) ∧
      (∀ kv ∈ ([("C", (10 : ℚ))] : Snap),
        alGet (alGetD p'.positions 3 []) kv.1 = some kv.2) ∧
      V2 = V1 + ((alKeys ([("C", (10 : ℚ))] : Snap)).map (secCash pC3w 0 3)).sum := by
  refine C3_carry_value_accrual pC3w 3 0 [("C", 10)]
    (by simp [pC3w, alGet]) ?_ (by simp [pC3w, alGet]) (by simp) (by simp [alKeys])
    ?_ ?_ ?_ ?_
  · simp [pC3w, find_lt, alKeys, alGet]
  · intro n hn
    simp [alKeys] at hn
    simp [hn, pC3w]
  · intro n hn
    simp [alKeys] at hn
    simp [hn, pC3w, Portfolio.get_security, findSecurity, secC3w]
  · intro n hn
    simp [alKeys] at hn
    simp [hn, pC3w, secExpired, Portfolio.get_security, findSecurity, secC3w]
  · intro n hn sec hsec
    simp [alKeys] at hn
    simp [hn, pC3w, Portfolio.get_security, findSecurity, secC3w] at hsec
    rw [← hsec]

/-! ## The zero-free position invariant (C9) -/

/-- The spec's ledger invariant: no position entry holds quantity 0, except
the base-currency entry, which may hold any value. -/
def zeroFreeInv (p : Portfolio) : Prop :=
  ∀ dkv ∈ p.positions, ∀ kv ∈ dkv.2, kv.1 ≠ p.currency → kv.2 ≠ 0

/-- Well-formedness of the dict model: dates and per-snapshot names repeat
no key (Python dicts cannot hold duplicate keys). -/
def snapKeysNodup (p : Portfolio) : Prop :=
  (alKeys p.positions).Nodup ∧ ∀ dkv ∈ p.positions, (alKeys dkv.2).Nodup

/-- A well-formed portfolio state: the zero-free invariant plus the
duplicate-free dict representation. -/
def WF (p : Portfolio) : Prop := zeroFreeInv p ∧ snapKeysNodup p

theorem not_mem_keys_of_alGet_none {κ α : Type} [DecidableEq κ]
    (l : List (κ × α)) (k : κ) (h : alGet l k = none) : k ∉ alKeys l := by
  intro hmem
  have := alGet_isSome_of_mem_keys l k hmem
  rw [h] at this
  simp at this

theorem get_security_add_position (p : Portfolio) (d : Nat) (n : String) (q : ℚ)
    (m : String) : (p.add_position d n q).get_security m = p.get_security m := by
  unfold Portfolio.get_security
  rw [(add_position_fields p d n q).2.2]

/-- The carry fold preserves the zero-free invariant and key uniqueness of
the snapshot it builds. -/
theorem carrySnapAux_inv (p : Portfolio) (previous_date date : Nat) (snapPrev : Snap)
    (hq : ∀ n ∈ alKeys snapPrev, n ≠ p.currency → alGetD snapPrev n 0 ≠ 0) :
    ∀ (names : List String) (s : Snap),
    (∀ n ∈ names, n ∈ alKeys snapPrev) →
    names.Nodup →
    (∀ n ∈ names, n ≠ p.currency → alGet s n = none) →
    (∀ kv ∈ s, kv.1 ≠ p.currency → kv.2 ≠ 0) →
    (alKeys s).Nodup →
    (∀ kv ∈ carrySnapAux p previous_date date snapPrev names s,
      kv.1 ≠ p.currency → kv.2 ≠ 0) ∧
    (alKeys (carrySnapAux p previous_date date snapPrev names s)).Nodup := by
  intro names
  induction names with
  | nil =>
      intro s _ _ _ hinv hnds
      exact ⟨hinv, hnds⟩
  | cons n rest ih =>
      intro s hmem hnd hfresh hinv hnds
      have hmem0 : n ∈ alKeys snapPrev := hmem n (List.mem_cons_self _ _)
      have hnrest : n ∉ rest := (List.nodup_cons.mp hnd).1
      rw [carrySnapAux_cons]
      set s1 : Snap := alSet s p.currency
        (alGetD s p.currency 0 + secCash p previous_date date n) with hs1
      have hinv1 : ∀ kv ∈ s1, kv.1 ≠ p.currency → kv.2 ≠ 0 := by
        intro kv hkv hne
        rcases mem_alSet _ _ _ _ hkv with h | h
        · exact absurd (congrArg Prod.fst h) hne
        · exact hinv kv h hne
      have hnds1 : (alKeys s1).Nodup := alKeys_alSet_nodup _ _ _ hnds
      have hfresh1 : ∀ m ∈ rest, m ≠ p.currency → alGet s1 m = none := by
        intro m hm hmc
        rw [hs1, alGet_alSet_ne _ _ _ _ hmc]
        exact hfresh m (List.mem_cons_of_mem _ hm) hmc
      by_cases hexp : secExpired p date n = true
      · rw [if_pos hexp]
        exact ih s1 (fun m hm => hmem m (List.mem_cons_of_mem _ hm))
          (List.Nodup.of_cons hnd) hfresh1 hinv1 hnds1
      · rw [if_neg hexp]
        by_cases hncur : n = p.currency
        · refine ih _ (fun m hm => hmem m (List.mem_cons_of_mem _ hm))
            (List.Nodup.of_cons hnd) ?_ ?_ (alKeys_alSet_nodup _ _ _ hnds1)
          · intro m hm hmc
            rw [alGet_alSet_ne _ _ _ _ (by rw [hncur]; exact hmc)]
            exact hfresh1 m hm hmc
          · intro kv hkv hne
            rcases mem_alSet _ _ _ _ hkv with h | h
            · exact absurd (by rw [congrArg Prod.fst h]; exact hncur) hne
            · exact hinv1 kv h hne
        · have hs1n : alGet s1 n = none := by
            rw [hs1, alGet_alSet_ne _ _ _ _ hncur]
            exact hfresh n (List.mem_cons_self _ _) hncur
          have hval : alGetD s1 n 0 + alGetD snapPrev n 0 ≠ 0 := by
            rw [show alGetD s1 n 0 = 0 from by unfold alGetD; rw [hs1n]; rfl, zero_add]
            exact hq n hmem0 hncur
          refine ih _ (fun m hm => hmem m (List.mem_cons_of_mem _ hm))
            (List.Nodup.of_cons hnd) ?_ ?_ (alKeys_alSet_nodup _ _ _ hnds1)
          · intro m hm hmc
            have hmn : m ≠ n := fun he => hnrest (he ▸ hm)
            rw [alGet_alSet_ne _ _ _ _ hmn]
            exact hfresh1 m hm hmc
          · intro kv hkv hne
            rcases mem_alSet _ _ _ _ hkv with h | h
            · rw [h]
              exact hval
            · exact hinv1 kv h hne

/-- A successful carry loop resolved every name it visited. -/
theorem carryLoop_resolvable (date previous_date : Nat) :
    ∀ (names : List String) (st p' : Portfolio),
    carryLoop date previous_date names st = .ok p' →
    ∀ n ∈ names, (st.get_security n).isSome := by
  intro names
  induction names with
  | nil =>
      intro st p' _ n hn
      simp at hn
  | cons n0 rest ih =>
      intro st p' h n hn
      rw [show carryLoop date previous_date (n0 :: rest) st =
          Option.elim (st.get_security n0)
            (.error .attributeError)
            (fun security =>
              let st1 := st.add_position date st.currency
                (security.cash_to_date previous_date date)
              let st2 :=
                if security.is_expired date then st1
                else st1.add_position date n0
                  (alGetD (alGetD st1.positions previous_date []) n0 0)
              carryLoop date previous_date rest st2) from rfl] at h
      rcases hsec : st.get_security n0 with _ | sec
      · rw [hsec] at h
        simp only [Option.elim] at h
        exact Except.noConfusion h
      · rcases List.mem_cons.mp hn with h0 | h0
        · rw [h0, hsec]
          rfl
        · rw [hsec] at h
          simp only [Option.elim] at h
          set st1 := st.add_position date st.currency
            (sec.cash_to_date previous_date date) with hst1
          set st2 := if sec.is_expired date then st1
            else st1.add_position date n0
              (alGetD (alGetD st1.positions previous_date []) n0 0) with hst2
          have hsec2 : st2.get_security n = st.get_security n := by
            rw [hst2]
            by_cases hexp : sec.is_expired date = true
            · rw [if_pos hexp, hst1, get_security_add_position]
            · rw [if_neg hexp, get_security_add_position, hst1,
                get_security_add_position]
          rw [← hsec2]
          exact ih st2 p' h n h0

/-- `carry_to` preserves well-formedness, hence the zero-free invariant,
whenever it succeeds. -/
theorem carry_to_WF (p : Portfolio) (date : Nat) (p' : Portfolio)
    (hwf : WF p) (h : p.carry_to date = .ok p') : WF p' := by
  rw [carry_to_def] at h
  rcases hx : alGet p.positions date with _ | s
  swap
  · rw [hx] at h
    simp only [Option.elim] at h
    injection h with h
    rw [← h]
    exact hwf
  rw [hx] at h
  simp only [Option.elim] at h
  rcases hfl : find_lt date (alKeys p.positions) with e | prev
  · rw [hfl, onOk_error] at h
    exact Except.noConfusion h
  rw [hfl, onOk_ok] at h
  obtain ⟨hmem, _⟩ := find_lt_ok date _ prev hfl
  have hsome := alGet_isSome_of_mem_keys p.positions prev hmem
  rcases hsp : alGet p.positions prev with _ | snapPrev
  · rw [hsp] at hsome
    simp at hsome
  have hgd : alGetD p.positions prev [] = snapPrev := by
    unfold alGetD
    rw [hsp]
    rfl
  rw [hgd] at h
  rcases hsnil : snapPrev with _ | ⟨kv0, tl⟩
  · rw [hsnil] at h
    rw [show alKeys ([] : Snap) = [] from rfl] at h
    injection h with h
    rw [← h]
    exact hwf
  have hres : ∀ n ∈ alKeys snapPrev, (p.get_security n).isSome :=
    carryLoop_resolvable date prev (alKeys snapPrev) p p' h
  have hne : snapPrev ≠ [] := by rw [hsnil]; exact List.cons_ne_nil _ _
  have hspec := carry_to_spec p date prev snapPrev hx hfl hsp hne hres
  have hcarry : p.carry_to date = .ok p' := by
    rw [carry_to_def, hx]
    simp only [Option.elim]
    rw [hfl, onOk_ok, hgd]
    exact h
  rw [hspec] at hcarry
  injection hcarry with hcarry
  rw [← hcarry]
  have hprevmem : (prev, snapPrev) ∈ p.positions := alGet_mem hsp
  have hprevnd : (alKeys snapPrev).Nodup := hwf.2.2 (prev, snapPrev) hprevmem
  have hq : ∀ n ∈ alKeys snapPrev, n ≠ p.currency → alGetD snapPrev n 0 ≠ 0 := by
    intro n hn hnc
    rcases mem_alKeys.mp hn with ⟨v, hv⟩
    rw [show alGetD snapPrev n 0 = v from by
      unfold alGetD
      rw [show alGet snapPrev n = some v from alGet_of_nodup_mem hprevnd hv]
      rfl]
    exact hwf.1 (prev, snapPrev) hprevmem (n, v) hv hnc
  have hX := carrySnapAux_inv p prev date snapPrev hq (alKeys snapPrev) []
    (fun n hn => hn) hprevnd (fun _ _ _ => rfl) (by simp) (by simp [alKeys])
  have hdnotmem : date ∉ alKeys p.positions := not_mem_keys_of_alGet_none _ _ hx
  have happ : alSet p.positions date
      (carrySnapAux p prev date snapPrev (alKeys snapPrev) [])
      = p.positions ++ [(date, carrySnapAux p prev date snapPrev (alKeys snapPrev) [])] :=
    alSet_fresh _ _ _ hx
  constructor
  · intro dkv hdkv kv hkv hne2
    rw [withPositions_positions, happ] at hdkv
    rcases List.mem_append.mp hdkv with hold | hnew
    · exact hwf.1 dkv hold kv hkv hne2
    · have : dkv = (date, carrySnapAux p prev date snapPrev (alKeys snapPrev) []) := by
        simpa using hnew
      rw [this] at hkv
      exact hX.1 kv hkv hne2
  · constructor
    · rw [withPositions_positions, happ, alKeys_append]
      refine hwf.2.1.append (by simp [alKeys]) ?_
      intro a ha hb
      have : a = date := by simpa [alKeys] using hb
      exact hdnotmem (this ▸ ha)
    · intro dkv hdkv
      rw [withPositions_positions, happ] at hdkv
      rcases List.mem_append.mp hdkv with hold | hnew
      · exact hwf.2.2 dkv hold
      · have : dkv = (date, carrySnapAux p prev date snapPrev (alKeys snapPrev) []) := by
          simpa using hnew
        rw [this]
        exact hX.2

/-- Definitional unfolding of `apply_trade`. -/
theorem apply_trade_def (p : Portfolio) (date : Nat) (name : String) (t : Trade) :
    p.apply_trade date name t
      = onOk (Option.elim (alGet p.positions date) (p.carry_to date) (fun _ => .ok p))
          (fun p1 =>
            Option.elim (alGet p1.positions date)
              (.error .keyError)
              (fun snap =>
                let snap1 := alSet snap name (alGetD snap name 0 + t.qty)
                let snap2 := alSet snap1 p1.currency
                  (alGetD snap1 p1.currency 0 - t.qty * t.price)
                let snap3 :=
                  if alGetD snap2 name 0 = 0 ∧ name ≠ p1.currency
                  then alErase snap2 name else snap2
                .ok { p1 with positions := alSet p1.positions date snap3 })) := rfl

/-- `_apply_trade` preserves well-formedness whenever it succeeds. -/
theorem apply_trade_WF (p : Portfolio) (date : Nat) (name : String) (t : Trade)
    (p' : Portfolio) (hwf : WF p) (h : p.apply_trade date name t = .ok p') : WF p' := by
  rw [apply_trade_def] at h
  have hstep : ∃ p1, (Option.elim (alGet p.positions date) (p.carry_to date)
      (fun _ => .ok p) : Except Err Portfolio) = .ok p1 ∧ WF p1 := by
    rcases hx : alGet p.positions date with _ | s
    · rcases hc : p.carry_to date with e | p1
      · rw [hx] at h
        simp only [Option.elim] at h
        rw [hc, onOk_error] at h
        exact Except.noConfusion h
      · refine ⟨p1, ?_, carry_to_WF p date p1 hwf hc⟩
        simp only [hx, Option.elim]
    · refine ⟨p, ?_, hwf⟩
      simp only [hx, Option.elim]
  obtain ⟨p1, hp1, hwf1⟩ := hstep
  rw [hp1, onOk_ok] at h
  rcases hy : alGet p1.positions date with _ | snap
  · rw [hy] at h
    simp only [Option.elim] at h
    exact Except.noConfusion h
  rw [hy] at h
  simp only [Option.elim] at h
  injection h with h
  rw [← h]
  set cur := p1.currency with hcurdef
  set snap1 := alSet snap name (alGetD snap name 0 + t.qty) with hsnap1
  set snap2 := alSet snap1 cur (alGetD snap1 cur 0 - t.qty * t.price) with hsnap2
  set snap3 := (if alGetD snap2 name 0 = 0 ∧ name ≠ cur
    then alErase snap2 name else snap2) with hsnap3
  have hsnapmem : (date, snap) ∈ p1.positions := alGet_mem hy
  have hsnapinv : ∀ kv ∈ snap, kv.1 ≠ cur → kv.2 ≠ 0 :=
    fun kv hkv => hwf1.1 (date, snap) hsnapmem kv hkv
  have hsnapnd : (alKeys snap).Nodup := hwf1.2.2 (date, snap) hsnapmem
  have hnd1 : (alKeys snap1).Nodup := alKeys_alSet_nodup _ _ _ hsnapnd
  have hnd2 : (alKeys snap2).Nodup := alKeys_alSet_nodup _ _ _ hnd1
  have hinv3 : ∀ kv ∈ snap3, kv.1 ≠ cur → kv.2 ≠ 0 := by
    by_cases hcond : alGetD snap2 name 0 = 0 ∧ name ≠ cur
    · rw [hsnap3, if_pos hcond]
      intro kv hkv hne
      obtain ⟨hb2, hbname⟩ := mem_alErase_nodup snap2 name hnd2 kv hkv
      rcases mem_alSet _ _ _ _ hb2 with hb | hb
      · exact absurd (congrArg Prod.fst hb) hne
      · rcases mem_alSet _ _ _ _ hb with hb2x | hb2x
        · exact absurd (congrArg Prod.fst hb2x) hbname
        · exact hsnapinv kv hb2x hne
    · rw [hsnap3, if_neg hcond]
      intro kv hkv hne
      rcases mem_alSet _ _ _ _ hkv with hb | hb
      · exact absurd (congrArg Prod.fst hb) hne
      · rcases mem_alSet _ _ _ _ hb with hb2x | hb2x
        · by_cases hnc : name = cur
          · exact absurd (by rw [congrArg Prod.fst hb2x]; exact hnc) hne
          · have hv1 : alGet snap2 name = some (alGetD snap name 0 + t.qty) := by
              rw [hsnap2, alGet_alSet_ne _ _ _ _ hnc, hsnap1, alGet_alSet_self]
            have hgd2 : alGetD snap2 name 0 = alGetD snap name 0 + t.qty := by
              unfold alGetD
              rw [hv1]
              rfl
            have hne0 : alGetD snap2 name 0 ≠ 0 := fun h0 => hcond ⟨h0, hnc⟩
            rw [hb2x]
            simp only
            rw [← hgd2]
            exact hne0
        · exact hsnapinv kv hb2x hne
  have hnd3 : (alKeys snap3).Nodup := by
    by_cases hcond : alGetD snap2 name 0 = 0 ∧ name ≠ cur
    · rw [hsnap3, if_pos hcond]
      exact alKeys_alErase_nodup _ _ hnd2
    · rw [hsnap3, if_neg hcond]
      exact hnd2
  constructor
  · intro dkv hdkv kv hkv hne
    rcases mem_alSet _ _ _ _ hdkv with hnew | hold
    · rw [hnew] at hkv
      exact hinv3 kv hkv hne
    · exact hwf1.1 dkv hold kv hkv hne
  · constructor
    · rw [show ({ p1 with positions := alSet p1.positions date snap3 } :
            Portfolio).positions = alSet p1.positions date snap3 from rfl,
        alKeys_alSet_mem _ _ _ (mem_alKeys_of_alGet hy)]
      exact hwf1.2.1
    · intro dkv hdkv
      rcases mem_alSet _ _ _ _ hdkv with hnew | hold
      · rw [hnew]
        exact hnd3
      · exact hwf1.2.2 dkv hold

/-- Updating only the trade ledger does not affect well-formedness. -/
theorem WF_set_trades (p : Portfolio) (X : List (Nat × List (String × Trade)))
    (hwf : WF p) : WF { p with trades := X } := by
  refine ⟨?_, hwf.2.1, hwf.2.2⟩
  intro dkv hdkv kv hkv hne
  exact hwf.1 dkv hdkv kv hkv hne

/-- `add_trade` preserves well-formedness whenever it succeeds. -/
theorem add_trade_WF (p : Portfolio) (date : Nat) (name : String) (t : Trade)
    (p' : Portfolio) (hwf : WF p) (h : p.add_trade date name t = .ok p') : WF p' := by
  unfold Portfolio.add_trade at h
  rcases hx : alGet p.trades date with _ | day
  · rw [hx] at h
    simp only [Option.elim] at h
    exact apply_trade_WF _ _ _ _ _ (WF_set_trades p _ hwf) h
  · rw [hx] at h
    simp only [Option.elim] at h
    rcases hm : merge_trades (alGetD day name ⟨0, 0⟩) t with e | merged
    · rw [hm, onOk_error] at h
      exact Except.noConfusion h
    · rw [hm, onOk_ok] at h
      exact apply_trade_WF _ _ _ _ _ (WF_set_trades p _ hwf) h

/-- `remove_position` without an explicit quantity pops the *date* key from
the name-keyed snapshot (the latent bug the spec notes), which never
matches a string key: the portfolio is unchanged. -/
theorem remove_position_none (p : Portfolio) (date : Nat) (name : String) :
    p.remove_position date name none = p := by
  unfold Portfolio.remove_position
  rcases alGet p.positions date with _ | s
  · rfl
  · rfl

/-- **C9 (amended)**: on well-formed states, `add_trade` (via
`_apply_trade`) and `carry_to` preserve the zero-free position invariant
(with key uniqueness) whenever they succeed, and `remove_position` without
an explicit quantity never changes the state; `add_position` — and
`remove_position` with a quantity — can create a zero-quantity
non-currency entry (see the counterexample), so the claim does not hold
for every ledger operation. -/
theorem C9_ledger_ops_invariant :
    (∀ (p : Portfolio) (date : Nat) (name : String) (t : Trade) (p' : Portfolio),
      WF p → p.add_trade date name t = .ok p' → WF p') ∧
    (∀ (p : Portfolio) (date : Nat) (p' : Portfolio),
      WF p → p.carry_to date = .ok p' → WF p') ∧
    (∀ (p : Portfolio) (date : Nat) (name : String),
      p.remove_position date name none = p) :=
  ⟨fun p date name t p' hwf h => add_trade_WF p date name t p' hwf h,
   fun p date p' hwf h => carry_to_WF p date p' hwf h,
   fun p date name => remove_position_none p date name⟩

/-- The C9 counterexample portfolio: a fresh empty portfolio. -/
def pC9 : Portfolio := Portfolio.init "CUR" []

/-- **C9 counterexample**: `add_position(0, "X", 0)` on a fresh portfolio
creates the zero-quantity non-currency entry `X: 0`, violating the
invariant the claim asserts is preserved by every ledger operation. -/
theorem C9_add_position_zero_entry_counterexample :
    zeroFreeInv pC9 ∧ ¬ zeroFreeInv (pC9.add_position 0 "X" 0) := by
  constructor
  · intro dkv hdkv kv hkv hne
    simp [pC9, Portfolio.init] at hdkv
  · intro hinv
    have h1 : (pC9.add_position 0 "X" 0).positions = [(0, [("X", 0)])] := by
      simp [pC9, Portfolio.init, Portfolio.add_position, alGet, alSet]
    have h2 := hinv (0, [("X", 0)])
      (by rw [h1]; exact List.mem_cons_self _ _)
      ("X", 0) (List.mem_cons_self _ _)
      (by rw [(add_position_fields pC9 0 "X" 0).1]; simp [pC9, Portfolio.init])
    exact h2 rfl

/-- The C9 witness portfolio: one materialized snapshot `{X: 2}` at date
5. -/
def pC9w : Portfolio := ⟨[(5, [("X", 2)])], [], "CUR", []⟩

/-- The state after trading 1 unit of `X` at price 3 on date 5. -/
def pC9x : Portfolio :=
  ⟨[(5, [("X", 3), ("CUR", -3)])], [(5, [("X", ⟨1, 3⟩)])], "CUR", []⟩

/-- Witness for C9 (amended): the concrete trade succeeds and the theorem
yields well-formedness of the result; `remove_position` without a quantity
is the identity. -/
theorem C9_ledger_ops_invariant_witness :
    pC9w.add_trade 5 "X" ⟨1, 3⟩ = .ok pC9x ∧ WF pC9x ∧
    pC9w.remove_position 5 "X" none = pC9w := by
  have hwf : WF pC9w := by
    refine ⟨?_, ?_, ?_⟩
    · intro dkv hdkv kv hkv hne
      simp [pC9w] at hdkv
      rw [hdkv] at hkv
      simp at hkv
      rw [hkv]
      norm_num
    · simp [pC9w, alKeys]
    · intro dkv hdkv
      simp [pC9w] at hdkv
      rw [hdkv]
      simp [alKeys]
  have hadd : pC9w.add_trade 5 "X" ⟨1, 3⟩ = .ok pC9x := by
    simp [pC9w, pC9x, Portfolio.add_trade, Portfolio.apply_trade,
      alGet, alGetD, alSet, alErase, alKeys, Portfolio.mk.injEq]
    norm_num
  exact ⟨hadd, C9_ledger_ops_invariant.1 pC9w 5 "X" ⟨1, 3⟩ pC9x hwf hadd,
    C9_ledger_ops_invariant.2.2 pC9w 5 "X"⟩
